import Mathlib

/-!
Shallow embedding of the CacheGen KV-cache encoder
(`lmcache/storage_backend/serde/cachegen_encoder.py`).

Conventions of the embedding:
* tensors are nested lists; floating-point values are modelled as exact
  rationals (ℚ); `torch.round` is modelled as round-half-to-even, torch's
  default rounding mode;
* the machine-integer casts `.to(torch.int8)` / `.to(torch.int16)` are
  modelled by explicit wrap-around functions `c8` / `c16` on ℤ;
* the external arithmetic coder `torchac.encode_int16_normalized_cdf` is an
  opaque parameter `coder`; likewise the final pickling of the output record
  is an opaque parameter `serialize`;
* fallible torch operations (`torch.nn.functional.one_hot` raising on a class
  value outside `[0, num_classes)`) are modelled with `Except String`.
-/

/-- Computable floor of a rational: `q.num / q.den` with Lean's integer
division (Euclidean, which agrees with floor division for a positive
denominator).  Agrees with Mathlib's `Int.floor` (see `ifloor_eq_floor`). -/
def ifloor (q : ℚ) : ℤ := q.num / (q.den : ℤ)

theorem ifloor_eq_floor (q : ℚ) : ifloor q = ⌊q⌋ := Rat.floor_def.symm

/-- Round half to even on ℚ (torch's default rounding mode for
`torch.round`). -/
def roundHE (q : ℚ) : ℤ :=
  if q - ifloor q < 1/2 then ifloor q
  else if 1/2 < q - ifloor q then ifloor q + 1
  else if ifloor q % 2 = 0 then ifloor q else ifloor q + 1

theorem roundHE_ge_floor (q : ℚ) : ⌊q⌋ ≤ roundHE q := by
  unfold roundHE
  rw [ifloor_eq_floor]
  split
  · exact le_refl _
  split
  · omega
  split <;> omega

theorem roundHE_le_floor_add_one (q : ℚ) : roundHE q ≤ ⌊q⌋ + 1 := by
  unfold roundHE
  rw [ifloor_eq_floor]
  split
  · omega
  split
  · omega
  split <;> omega

theorem le_roundHE (a : ℤ) (q : ℚ) (h : (a : ℚ) ≤ q) : a ≤ roundHE q :=
  le_trans (Int.le_floor.mpr h) (roundHE_ge_floor q)

theorem roundHE_le_of_lt (b : ℤ) (q : ℚ) (h : q < (b : ℚ) + 1/2) :
    roundHE q ≤ b := by
  rcases le_or_lt ⌊q⌋ (b - 1) with hf | hf
  · exact le_trans (roundHE_le_floor_add_one q) (by omega)
  · -- then b ≤ ⌊q⌋ ≤ q < b + 1/2, so ⌊q⌋ = b and the fractional part is < 1/2
    have hbq : (b : ℚ) ≤ q := by
      calc (b : ℚ) ≤ (⌊q⌋ : ℚ) := by exact_mod_cast by omega
        _ ≤ q := Int.floor_le q
    have hfb : ⌊q⌋ = b := by
      have h1 : (⌊q⌋ : ℚ) ≤ q := Int.floor_le q
      have h2 : (⌊q⌋ : ℚ) < (b : ℚ) + 1/2 := lt_of_le_of_lt h1 h
      have : ⌊q⌋ ≤ b := by
        by_contra hc
        push_neg at hc
        have : ((b + 1 : ℤ) : ℚ) ≤ (⌊q⌋ : ℚ) := by exact_mod_cast hc
        push_cast at this
        linarith
      omega
    unfold roundHE
    rw [ifloor_eq_floor, hfb]
    have hfrac : q - (b : ℚ) < 1/2 := by linarith
    rw [if_pos hfrac]

theorem roundHE_le (b : ℤ) (q : ℚ) (h : q ≤ (b : ℚ)) : roundHE q ≤ b :=
  roundHE_le_of_lt b q (by linarith)

theorem roundHE_intCast (n : ℤ) : roundHE (n : ℚ) = n := by
  have h1 : ((n : ℚ)) ≤ (n : ℚ) := le_refl _
  have := le_roundHE n (n : ℚ) h1
  have := roundHE_le n (n : ℚ) h1
  omega

theorem roundHE_eq_of_lt_half (n : ℤ) (q : ℚ) (h1 : (n : ℚ) ≤ q)
    (h2 : q < (n : ℚ) + 1/2) : roundHE q = n := by
  have := le_roundHE n q h1
  have := roundHE_le_of_lt n q h2
  omega

theorem roundHE_eq_of_gt_half (n : ℤ) (q : ℚ) (h1 : (n : ℚ) + 1/2 < q)
    (h2 : q ≤ (n : ℚ) + 1) : roundHE q = n + 1 := by
  have hu : roundHE q ≤ n + 1 := roundHE_le (n + 1) q (by push_cast; linarith)
  have hl : n + 1 ≤ roundHE q := by
    have hfl : n ≤ ⌊q⌋ := Int.le_floor.mpr (by linarith)
    rcases le_or_lt (n + 1) ⌊q⌋ with hf | hf
    · exact le_trans hf (roundHE_ge_floor q)
    · have hfn : ⌊q⌋ = n := by omega
      unfold roundHE
      rw [ifloor_eq_floor, hfn]
      have hfrac : ¬ (q - (n : ℚ) < 1/2) := by push_neg; linarith
      have hfrac2 : 1/2 < q - (n : ℚ) := by linarith
      rw [if_neg hfrac, if_pos hfrac2]
  omega

theorem roundHE_mono (q r : ℚ) (h : q ≤ r) : roundHE q ≤ roundHE r := by
  rcases lt_or_le ⌊q⌋ ⌊r⌋ with hf | hf
  · calc roundHE q ≤ ⌊q⌋ + 1 := roundHE_le_floor_add_one q
      _ ≤ ⌊r⌋ := by omega
      _ ≤ roundHE r := roundHE_ge_floor r
  · have hQR : ⌊q⌋ = ⌊r⌋ := le_antisymm (Int.floor_mono h) hf
    unfold roundHE
    rw [ifloor_eq_floor, ifloor_eq_floor, hQR]
    split_ifs <;> first | omega | linarith

/-- Wrap-around cast to a signed 8-bit integer, modelling `.to(torch.int8)`. -/
def c8 (z : ℤ) : ℤ := (z + 128) % 256 - 128

theorem c8_eq_self (z : ℤ) (h1 : -128 ≤ z) (h2 : z ≤ 127) : c8 z = z := by
  unfold c8
  rw [Int.emod_eq_of_lt (by omega) (by omega)]
  omega

/-- Wrap-around cast to a signed 16-bit integer, modelling `.to(torch.int16)`
and int16 tensor addition. -/
def c16 (z : ℤ) : ℤ := (z + 32768) % 65536 - 32768

/-- Reinterpretation of an integer as an unsigned 16-bit value, the view the
arithmetic coder takes of the int16 CDF bit patterns. -/
def uint16 (z : ℤ) : ℤ := z % 65536

theorem uint16_c16 (z : ℤ) : uint16 (c16 z) = uint16 z := by
  unfold uint16 c16
  conv_rhs => rw [show z = (z + 32768) - 32768 by ring]
  rw [Int.sub_emod, Int.sub_emod (z + 32768), Int.emod_emod_of_dvd _ (by norm_num)]

theorem uint16_eq_self (z : ℤ) (h1 : 0 ≤ z) (h2 : z < 65536) : uint16 z = z :=
  Int.emod_eq_of_lt h1 h2

theorem uint16_nonneg (z : ℤ) : 0 ≤ uint16 z :=
  Int.emod_nonneg z (by norm_num)

theorem uint16_lt (z : ℤ) : uint16 z < 65536 :=
  Int.emod_lt_of_pos z (by norm_num)

/-- Wrap-around cast to a signed 32-bit integer, modelling the `.int()`
(int32) tensor cast. -/
def c32 (z : ℤ) : ℤ := (z + 2147483648) % 4294967296 - 2147483648

theorem c32_eq_self (z : ℤ) (h1 : -2147483648 ≤ z) (h2 : z ≤ 2147483647) :
    c32 z = z := by
  unfold c32
  rw [Int.emod_eq_of_lt (by omega) (by omega)]
  omega

/-! ## Quantizer (`torch_quant`, `CacheGenEncoderImpl.quantize`) -/

/-- `torch.amax(torch.abs(row), dim=-1)` over one `(layer, token)` row. -/
def rowMax (row : List ℚ) : ℚ := row.foldr (fun x m => max |x| m) 0

/-- One row of `torch_quant`: `round(x * (C / max1)).to(torch.int8)`.
Note the source divides by the row maximum with no zero guard; in this
rational embedding division by zero yields 0 where IEEE floats would give
NaN, so claims about all-zero rows are settled through the returned scale,
which the embedding shares exactly with the source. -/
def quantRow (C : ℤ) (row : List ℚ) : List ℤ :=
  row.map (fun x => c8 (roundHE (x * ((C : ℚ) / rowMax row))))

/-- `torch_quant(bins, qA)`: per-row symmetric quantization of a
`[tokens, channels]` tensor; returns the int8 symbols and the per-row
maxima (`max1`), exactly the pair the source returns. -/
def torch_quant (bins : ℕ) (qA : List (List ℚ)) : List (List ℤ) × List ℚ :=
  let MAX : ℤ := (bins : ℤ) / 2 - 1
  (qA.map (quantRow MAX), qA.map rowMax)

/-- Codec configuration record (`CacheGenConfig`), the eight recognized
bin-schedule options. -/
structure CacheGenConfig where
  key_first_layers : ℕ
  key_first_bins : ℕ
  key_second_layers : ℕ
  key_second_bins : ℕ
  key_third_bins : ℕ
  value_first_layers : ℕ
  value_first_bins : ℕ
  value_second_bins : ℕ
deriving Repr, DecidableEq

/-- Layer-banded bin schedule for keys (three bands), from
`CacheGenEncoderImpl.quantize`. -/
def keyBins (config : CacheGenConfig) (layer : ℕ) : ℕ :=
  if layer < config.key_first_layers then config.key_first_bins
  else if layer < config.key_second_layers then config.key_second_bins
  else config.key_third_bins

/-- Layer-banded bin schedule for values (two bands), from
`CacheGenEncoderImpl.quantize`. -/
def valueBins (config : CacheGenConfig) (layer : ℕ) : ℕ :=
  if layer < config.value_first_layers then config.value_first_bins
  else config.value_second_bins

/-- The per-bank body of `CacheGenEncoderImpl.quantize`: for each layer pick
`bins` from the band schedule, quantize with `torch_quant`, and shift the
int8 symbols by `bins // 2 - 1` (an int8 tensor plus a Python int stays
int8, hence the `c8` wrap on the sum).  Returns the dict of shifted symbol
tensors and the dict of per-row maxima, both in layer order. -/
def quantizeBank (binsOf : ℕ → ℕ) (fp : List (List (List ℚ))) :
    List (List (List ℤ)) × List (List ℚ) :=
  let per := (List.range fp.length).map (fun layer =>
    let bins := binsOf layer
    let MAX : ℤ := (bins : ℤ) / 2 - 1
    let tmp := torch_quant bins (fp.getD layer [])
    (tmp.1.map (fun row => row.map (fun v => c8 (v + MAX))), tmp.2))
  (per.map Prod.fst, per.map Prod.snd)

theorem rowMax_nonneg (row : List ℚ) : 0 ≤ rowMax row := by
  induction row with
  | nil => exact le_refl 0
  | cons x xs ih => exact le_trans ih (le_max_right _ _)

theorem abs_le_rowMax (row : List ℚ) (x : ℚ) (hx : x ∈ row) : |x| ≤ rowMax row := by
  induction row with
  | nil => cases hx
  | cons y ys ih =>
    rcases List.mem_cons.mp hx with h | h
    · subst h; exact le_max_left _ _
    · exact le_trans (ih h) (le_max_right _ _)

/-- Core symbol-range fact for one quantized-and-shifted row: with
`2 ≤ bins ≤ 33` and a nonzero row maximum, every shifted symbol lies in
`[0, bins - 1]`. -/
theorem quantRow_shift_range (bins : ℕ) (row : List ℚ) (s : ℤ)
    (hb2 : 2 ≤ bins) (hb33 : bins ≤ 33) (hm : rowMax row ≠ 0)
    (hs : s ∈ (quantRow ((bins : ℤ) / 2 - 1) row).map
        (fun v => c8 (v + ((bins : ℤ) / 2 - 1)))) :
    0 ≤ s ∧ s ≤ (bins : ℤ) - 1 := by
  set C : ℤ := (bins : ℤ) / 2 - 1 with hC
  have hC0 : 0 ≤ C := by
    have : (2 : ℤ) ≤ (bins : ℤ) := by exact_mod_cast hb2
    omega
  have hC15 : C ≤ 15 := by
    have : (bins : ℤ) ≤ 33 := by exact_mod_cast hb33
    omega
  have h2C : 2 * C ≤ (bins : ℤ) - 1 := by
    have : (2 : ℤ) ≤ (bins : ℤ) := by exact_mod_cast hb2
    omega
  rcases List.mem_map.mp hs with ⟨v, hv, hvs⟩
  rcases List.mem_map.mp hv with ⟨x, hx, hxv⟩
  have hm0 : 0 < rowMax row := lt_of_le_of_ne (rowMax_nonneg row) (Ne.symm hm)
  have habs : |x| ≤ rowMax row := abs_le_rowMax row x hx
  have hq : |x * ((C : ℚ) / rowMax row)| ≤ (C : ℚ) := by
    rw [abs_mul, abs_div, abs_of_pos hm0, abs_of_nonneg (by exact_mod_cast hC0 : (0:ℚ) ≤ (C:ℚ))]
    calc |x| * ((C : ℚ) / rowMax row) ≤ rowMax row * ((C : ℚ) / rowMax row) := by
          apply mul_le_mul_of_nonneg_right habs
          positivity
      _ = (C : ℚ) := by field_simp
  have hql : -(C : ℚ) ≤ x * ((C : ℚ) / rowMax row) := (abs_le.mp hq).1
  have hqu : x * ((C : ℚ) / rowMax row) ≤ (C : ℚ) := (abs_le.mp hq).2
  have hrl : -C ≤ roundHE (x * ((C : ℚ) / rowMax row)) := by
    apply le_roundHE
    push_cast
    exact hql
  have hru : roundHE (x * ((C : ℚ) / rowMax row)) ≤ C := roundHE_le C _ hqu
  have hc8 : c8 (roundHE (x * ((C : ℚ) / rowMax row))) =
      roundHE (x * ((C : ℚ) / rowMax row)) := c8_eq_self _ (by omega) (by omega)
  subst hvs
  rw [← hxv, hc8, c8_eq_self _ (by omega) (by omega)]
  omega

/-- Evaluation helper: quantized-and-shifted bank on a 1-layer, 1-token,
1-channel input. -/
theorem quantizeBank_singleton (binsOf : ℕ → ℕ) (x : ℚ) :
    (quantizeBank binsOf [[[x]]]).1 =
      [[[c8 (c8 (roundHE (x * ((((binsOf 0 : ℤ) / 2 - 1 : ℤ) : ℚ) / |x|)))
          + ((binsOf 0 : ℤ) / 2 - 1))]]] := by
  have hr1 : List.range 1 = [0] := rfl
  simp only [quantizeBank, torch_quant, quantRow, List.length_singleton, hr1,
    List.map_cons, List.map_nil, Function.comp, List.getD,
    List.getElem?_cons_zero, Option.getD_some]
  simp [quantRow, rowMax, max_eq_left (abs_nonneg x)]

/-- Rewriting helper for evaluating `roundHE` at an argument that is an
integer in disguise. -/
theorem roundHE_ofInt (n : ℤ) (q : ℚ) (h : q = (n : ℚ)) : roundHE q = n :=
  h ▸ roundHE_intCast n

/-- C1 (code evidence for the zero-scale policy claim): on an all-zero
`(layer, token)` row the source's `torch_quant` returns the row maximum
itself — `0` — as the scale, not the substituted `1` the specification
prescribes (the symbols of that row come from a division by zero). -/
theorem C1_zero_row_scale_is_zero :
    (torch_quant 8 [[(0 : ℚ), 0]]).2 = [0] ∧ ((0 : ℚ) ≠ 1) := by
  constructor
  · simp [torch_quant, rowMax]
  · norm_num

/-- Configuration used to refute C2 as stated: a band bin count of `1` is a
positive integer not exceeding the alphabet bound 33 (hence not rejected by
the specification's `ConfigInvalid` rules), yet it produces a negative
shifted symbol. -/
def cexConfigC2 : CacheGenConfig := ⟨1, 1, 1, 1, 1, 1, 1, 1⟩

/-- C2 counterexample: with the (spec-valid) bin count `1` for the first key
band and the single-row input `[1]` (row maximum `1 ≠ 0`), the quantizer
produces the shifted symbol `-2`, violating `0 ≤ sym`.  So the symbol-range
invariant fails for a configuration the specification does not exclude. -/
theorem C2_counterexample :
    keyBins cexConfigC2 0 = 1 ∧ 1 ≤ keyBins cexConfigC2 0 ∧ keyBins cexConfigC2 0 ≤ 33 ∧
    rowMax [(1 : ℚ)] ≠ 0 ∧
    (quantizeBank (keyBins cexConfigC2) [[[(1 : ℚ)]]]).1 = [[[-2]]] ∧
    ¬ ((0 : ℤ) ≤ -2 ∧ (-2 : ℤ) ≤ (keyBins cexConfigC2 0 : ℤ) - 1) := by
  have hbins : keyBins cexConfigC2 0 = 1 := rfl
  have hmax : rowMax [(1 : ℚ)] = 1 := by norm_num [rowMax]
  refine ⟨rfl, by norm_num [hbins], by norm_num [hbins], by rw [hmax]; norm_num, ?_, by omega⟩
  rw [quantizeBank_singleton]
  rw [roundHE_ofInt (-1) _ (by rw [hbins]; norm_num)]
  norm_num [hbins]
  decide

/-- Symbol-range invariant for one whole quantized bank, under the amended
bin bounds `2 ≤ bins ≤ 33`. -/
theorem quantizeBank_range (binsOf : ℕ → ℕ) (fp : List (List (List ℚ)))
    (hb : ∀ l, 2 ≤ binsOf l ∧ binsOf l ≤ 33)
    (hm : ∀ layer ∈ fp, ∀ row ∈ layer, rowMax row ≠ 0) :
    ∀ l : ℕ, ∀ row ∈ (quantizeBank binsOf fp).1.getD l [],
      ∀ s ∈ row, 0 ≤ s ∧ s ≤ (binsOf l : ℤ) - 1 := by
  intro l row hrow s hs
  rcases lt_or_le l fp.length with hl | hl
  · have hbank : (quantizeBank binsOf fp).1.getD l [] =
        ((torch_quant (binsOf l) (fp.getD l [])).1.map
          (fun r => r.map (fun v => c8 (v + ((binsOf l : ℤ) / 2 - 1))))) := by
      unfold quantizeBank
      rw [List.getD_eq_getElem _ _ (by simpa using hl)]
      simp [hl]
    rw [hbank] at hrow
    rcases List.mem_map.mp hrow with ⟨qrow, hqrow, hqeq⟩
    unfold torch_quant at hqrow
    simp only at hqrow
    rcases List.mem_map.mp hqrow with ⟨frow, hfrow, hfeq⟩
    have hlayer_mem : fp.getD l [] ∈ fp := by
      rw [List.getD_eq_getElem _ _ hl]
      exact List.getElem_mem hl
    have hmz : rowMax frow ≠ 0 := hm _ hlayer_mem frow hfrow
    apply quantRow_shift_range (binsOf l) frow s (hb l).1 (hb l).2 hmz
    rw [hfeq]
    rw [hqeq]
    exact hs
  · have : (quantizeBank binsOf fp).1.getD l [] = [] := by
      apply List.getD_eq_default
      unfold quantizeBank
      simpa using hl
    rw [this] at hrow
    cases hrow

/-- C2, amended: with every band's bin count between 2 and 33 and every
`(layer, token)` row of the key and value inputs having a nonzero maximum
absolute value, every shifted quantized symbol of both banks lies in
`[0, bins(layer) - 1]`, where `bins` follows the layer-banded schedule
(keys: three bands, values: two bands). -/
theorem C2_symbol_range (config : CacheGenConfig)
    (fp_k fp_v : List (List (List ℚ)))
    (hkb : ∀ l, 2 ≤ keyBins config l ∧ keyBins config l ≤ 33)
    (hvb : ∀ l, 2 ≤ valueBins config l ∧ valueBins config l ≤ 33)
    (hmk : ∀ layer ∈ fp_k, ∀ row ∈ layer, rowMax row ≠ 0)
    (hmv : ∀ layer ∈ fp_v, ∀ row ∈ layer, rowMax row ≠ 0) :
    (∀ l : ℕ, ∀ row ∈ (quantizeBank (keyBins config) fp_k).1.getD l [],
      ∀ s ∈ row, 0 ≤ s ∧ s ≤ (keyBins config l : ℤ) - 1) ∧
    (∀ l : ℕ, ∀ row ∈ (quantizeBank (valueBins config) fp_v).1.getD l [],
      ∀ s ∈ row, 0 ≤ s ∧ s ≤ (valueBins config l : ℤ) - 1) :=
  ⟨quantizeBank_range _ fp_k hkb hmk, quantizeBank_range _ fp_v hvb hmv⟩

/-- Witness configuration with all bands at 8 bins. -/
def witConfig8 : CacheGenConfig := ⟨1, 8, 2, 8, 8, 1, 8, 8⟩

/-- Witness for the amended C2 theorem at a concrete input. -/
theorem C2_symbol_range_witness :
    (∀ l : ℕ, ∀ row ∈ (quantizeBank (keyBins witConfig8) [[[(1 : ℚ)]]]).1.getD l [],
      ∀ s ∈ row, 0 ≤ s ∧ s ≤ (keyBins witConfig8 l : ℤ) - 1) ∧
    (∀ l : ℕ, ∀ row ∈ (quantizeBank (valueBins witConfig8) [[[(1 : ℚ)]]]).1.getD l [],
      ∀ s ∈ row, 0 ≤ s ∧ s ≤ (valueBins witConfig8 l : ℤ) - 1) := by
  apply C2_symbol_range witConfig8 [[[(1 : ℚ)]]] [[[(1 : ℚ)]]]
  · intro l
    have h8 : keyBins witConfig8 l = 8 := by
      unfold keyBins witConfig8
      split_ifs <;> rfl
    omega
  · intro l
    have h8 : valueBins witConfig8 l = 8 := by
      unfold valueBins witConfig8
      split_ifs <;> rfl
    omega
  · intro layer hlayer row hrow
    rw [List.mem_singleton] at hlayer
    subst hlayer
    rw [List.mem_singleton] at hrow
    subst hrow
    norm_num [rowMax]
  · intro layer hlayer row hrow
    rw [List.mem_singleton] at hlayer
    subst hlayer
    rw [List.mem_singleton] at hrow
    subst hrow
    norm_num [rowMax]

/-! ## CDF estimator (`CacheGenEncoderImpl.compute_cdf`, `process_batch`) -/

/-- Error-propagating map, modelling a Python loop over layers in which an
exception aborts the whole call. -/
def mapExcept (f : α → Except String β) : List α → Except String (List β)
  | [] => .ok []
  | x :: xs =>
    match f x with
    | .error e => .error e
    | .ok y =>
      match mapExcept f xs with
      | .error e => .error e
      | .ok ys => .ok (y :: ys)

/-- `torch.nn.functional.one_hot(s, num_classes)` for a single symbol. -/
def one_hot (numClasses : ℕ) (s : ℤ) : List ℚ :=
  (List.range numClasses).map (fun (a : ℕ) => if s = (a : ℤ) then 1 else 0)

/-- Elementwise vector addition (the `sum(dim=1)` accumulation). -/
def vecAdd (v w : List ℚ) : List ℚ := List.zipWith (· + ·) v w

/-- `one_hot(X, num_classes).sum(dim=1)` for one channel's symbol column. -/
def sumOneHot (numClasses : ℕ) (col : List ℤ) : List ℚ :=
  (col.map (one_hot numClasses)).foldr vecAdd (List.replicate numClasses 0)

/-- Running-sum helper; `cumsumFrom 0` is `torch.cumsum(·, dim=1)` on one
row. -/
def cumsumFrom (acc : ℚ) : List ℚ → List ℚ
  | [] => []
  | x :: xs => (acc + x) :: cumsumFrom (acc + x) xs

def cumsum (l : List ℚ) : List ℚ := cumsumFrom 0 l

/-- `.roll(1)` restricted to one row (torch's dimensionless `roll` flattens
the `[C, 33]` tensor, which drags the previous row's last element into
column 0 of each row; since `ret[:, 0]` is overwritten with 0 right after,
the composite effect is exactly a per-row roll followed by zeroing the
head, which is what `cdfRow` below composes). -/
def roll1 (l : List ℚ) : List ℚ :=
  match l with
  | [] => []
  | x :: xs => ((x :: xs).getLast?.getD 0) :: (x :: xs).dropLast

/-- `ret[:, 0] = 0` on one row. -/
def setHead0 : List ℚ → List ℚ
  | [] => []
  | _ :: xs => (0 : ℚ) :: xs

/-- The per-channel body of `process_batch`: empirical counts over the
token axis divided by `ntokens`, cumulated, rolled by one and zeroed at the
head. -/
def cdfRow (max_val ntokens : ℕ) (col : List ℤ) : List ℚ :=
  setHead0 (roll1 (cumsum ((sumOneHot (max_val + 1) col).map (fun c => c / (ntokens : ℚ)))))

/-- `process_batch(X, max_val)` on a `[channels, tokens]` symbol matrix.
`one_hot` raises a `RuntimeError` when a symbol lies outside
`[0, num_classes)`; this is the `Except.error` branch. -/
def process_batch (max_val : ℕ) (X : List (List ℤ)) : Except String (List (List ℚ)) :=
  let ntokens := (X.headD []).length
  if X.all (fun col => col.all (fun s => decide (0 ≤ s) && decide (s < (max_val : ℤ) + 1)))
  then .ok (X.map (cdfRow max_val ntokens))
  else .error "one_hot: Class values must be smaller than num_classes."

/-- The `[tokens, channels] → [channels, tokens]` permute done per layer in
`process_layers` (for a rectangular layer this is the matrix transpose). -/
def transposeTC (x : List (List ℤ)) : List (List ℤ) :=
  (List.range ((x.headD []).length)).map (fun c => x.map (fun row => row.getD c 0))

/-- `CacheGenEncoderImpl.compute_cdf` restricted to its essential data flow:
for each layer of the quantized bank, transpose to `[channels, tokens]` and
run `process_batch` with the fixed `value_range = 32`; the per-layer results
are collected in order (the source's `torch.cat` + `reshape` into
`[layers, channels, 33]`). -/
def compute_cdf (X : List (List (List ℤ))) : Except String (List (List (List ℚ))) :=
  mapExcept (fun x => process_batch 32 (transposeTC x)) X

/-- Number of symbols in a column strictly below `a` (the CDF numerator). -/
def countLt (col : List ℤ) (a : ℕ) : ℕ := col.countP (fun s => decide (s < (a : ℤ)))

/-- Number of symbols in a column equal to `a` (the histogram numerator). -/
def countEq (col : List ℤ) (a : ℕ) : ℕ := col.countP (fun s => decide (s = (a : ℤ)))

theorem countP_lt_add_one (col : List ℤ) (b : ℤ) :
    col.countP (fun s => decide (s < b + 1)) =
      col.countP (fun s => decide (s < b)) + col.countP (fun s => decide (s = b)) := by
  induction col with
  | nil => rfl
  | cons x xs ih =>
    simp only [List.countP_cons, ih]
    rcases lt_trichotomy x b with h | h | h
    · simp [h, show x < b + 1 by omega, show ¬(x = b) by omega]
      omega
    · simp [h]
      omega
    · simp [show ¬(x < b) by omega, show ¬(x < b + 1) by omega, show ¬(x = b) by omega]

theorem countLt_succ (col : List ℤ) (a : ℕ) :
    countLt col (a + 1) = countLt col a + countEq col a := by
  unfold countLt countEq
  have hc : ((a + 1 : ℕ) : ℤ) = (a : ℤ) + 1 := by push_cast; ring
  rw [show (fun s => decide (s < ((a + 1 : ℕ) : ℤ))) = (fun s => decide (s < (a : ℤ) + 1)) from by rw [hc]]
  exact countP_lt_add_one col (a : ℤ)

theorem countLt_zero (col : List ℤ) (h0 : ∀ s ∈ col, 0 ≤ s) : countLt col 0 = 0 := by
  unfold countLt
  apply List.countP_eq_zero.mpr
  intro s hs
  have := h0 s hs
  simp only [Nat.cast_zero, decide_eq_true_eq]
  omega

theorem countLt_le_length (col : List ℤ) (a : ℕ) : countLt col a ≤ col.length :=
  List.countP_le_length _

theorem countLt_mono (col : List ℤ) (a b : ℕ) (h : a ≤ b) :
    countLt col a ≤ countLt col b := by
  apply List.countP_mono_left
  intro s _ hsa
  simp only [decide_eq_true_eq] at *
  have : (a : ℤ) ≤ (b : ℤ) := by exact_mod_cast h
  omega

theorem countLt_eq_length (col : List ℤ) (a : ℕ)
    (hall : ∀ s ∈ col, s < (a : ℤ)) : countLt col a = col.length := by
  unfold countLt
  rw [List.countP_eq_length]
  intro s hs
  simpa using hall s hs

theorem zipWith_add_map (r : List ℕ) (g h : ℕ → ℚ) :
    List.zipWith (· + ·) (r.map g) (r.map h) = r.map (fun a => g a + h a) := by
  induction r with
  | nil => rfl
  | cons x xs ih => simp [ih]

theorem sumOneHot_eq (nc : ℕ) (col : List ℤ) :
    sumOneHot nc col = (List.range nc).map (fun a => (countEq col a : ℚ)) := by
  induction col with
  | nil =>
    unfold sumOneHot
    simp only [List.map_nil, List.foldr_nil]
    symm
    apply List.eq_replicate.mpr
    constructor
    · simp
    · intro b hb
      rcases List.mem_map.mp hb with ⟨a, _, ha⟩
      simp [countEq] at ha
      first
      | exact ha.symm
      | exact ha
  | cons x xs ih =>
    unfold sumOneHot at *
    simp only [List.map_cons, List.foldr_cons]
    rw [ih]
    unfold one_hot vecAdd
    rw [zipWith_add_map]
    apply List.map_congr_left
    intro a _
    by_cases hx : x = (a : ℤ) <;> simp [countEq, List.countP_cons, hx] <;> push_cast <;> ring

theorem cumsumFrom_eq (l : List ℚ) : ∀ acc : ℚ,
    cumsumFrom acc l = (List.range l.length).map (fun i => acc + ((l.take (i + 1)).sum)) := by
  induction l with
  | nil => intro acc; rfl
  | cons x xs ih =>
    intro acc
    simp only [cumsumFrom, List.length_cons]
    rw [List.range_succ_eq_map, List.map_cons, ih (acc + x), List.map_map]
    congr 1
    · simp
    · apply List.map_congr_left
      intro i _
      simp only [Function.comp, List.take_succ_cons, List.sum_cons]
      ring

theorem sum_map_div (l : List ℕ) (f : ℕ → ℚ) (c : ℚ) :
    (l.map (fun x => f x / c)).sum = (l.map f).sum / c := by
  induction l with
  | nil => simp
  | cons x xs ih => simp [ih, add_div]

theorem sum_countEq (col : List ℤ) (h0 : ∀ s ∈ col, 0 ≤ s) (k : ℕ) :
    ((List.range k).map (fun a => (countEq col a : ℚ))).sum = (countLt col k : ℚ) := by
  induction k with
  | zero => simp [countLt_zero col h0]
  | succ k ih =>
    rw [List.range_succ, List.map_append, List.sum_append, ih, countLt_succ]
    push_cast
    simp

theorem setHead0_roll1 (x : ℚ) (xs : List ℚ) :
    setHead0 (roll1 (x :: xs)) = 0 :: (x :: xs).dropLast := rfl

/-- Closed form of the per-channel CDF row: entry `a` is the fraction of
tokens whose symbol is strictly below `a`. -/
theorem cdfRow_eq (max_val ntokens : ℕ) (col : List ℤ) (h0 : ∀ s ∈ col, 0 ≤ s) :
    cdfRow max_val ntokens col =
      (List.range (max_val + 1)).map (fun a => (countLt col a : ℚ) / (ntokens : ℚ)) := by
  unfold cdfRow
  have hcounts : (sumOneHot (max_val + 1) col).map (fun c => c / (ntokens : ℚ)) =
      (List.range (max_val + 1)).map (fun a => (countEq col a : ℚ) / (ntokens : ℚ)) := by
    rw [sumOneHot_eq, List.map_map]
    rfl
  rw [hcounts]
  have hcs : cumsum ((List.range (max_val + 1)).map (fun a => (countEq col a : ℚ) / (ntokens : ℚ))) =
      (List.range (max_val + 1)).map (fun i => (countLt col (i + 1) : ℚ) / (ntokens : ℚ)) := by
    unfold cumsum
    rw [cumsumFrom_eq, List.length_map, List.length_range]
    apply List.map_congr_left
    intro i hi
    rw [List.mem_range] at hi
    rw [zero_add, ← List.map_take, List.take_range, min_eq_left (by omega), sum_map_div,
      sum_countEq col h0]
  rw [hcs]
  have hne : (List.range (max_val + 1)).map (fun i => (countLt col (i + 1) : ℚ) / (ntokens : ℚ)) =
      ((countLt col 1 : ℚ) / (ntokens : ℚ)) ::
        ((List.range max_val).map (fun i => (countLt col (i + 2) : ℚ) / (ntokens : ℚ))) := by
    rw [List.range_succ_eq_map, List.map_cons, List.map_map]
    rfl
  rw [hne]
  rw [setHead0_roll1]
  rw [← hne]
  have hdl : ((List.range (max_val + 1)).map (fun i => (countLt col (i + 1) : ℚ) / (ntokens : ℚ))).dropLast =
      (List.range max_val).map (fun i => (countLt col (i + 1) : ℚ) / (ntokens : ℚ)) := by
    rw [List.range_succ, List.map_append, List.map_singleton, List.dropLast_concat]
  rw [hdl, List.range_succ_eq_map, List.map_cons, List.map_map]
  congr 1
  simp [countLt_zero col h0]

theorem mapExcept_ok_of (f : α → Except String β) (g : α → β) (X : List α)
    (h : ∀ x ∈ X, f x = .ok (g x)) : mapExcept f X = .ok (X.map g) := by
  induction X with
  | nil => rfl
  | cons x xs ih =>
    unfold mapExcept
    rw [h x (List.mem_cons_self x xs), ih (fun y hy => h y (List.mem_cons_of_mem x hy))]
    rfl

theorem mapExcept_error_of_mem (f : α → Except String β) (X : List α) (x : α)
    (hx : x ∈ X) (hbad : ∀ y, f x ≠ .ok y) : ∃ e, mapExcept f X = .error e := by
  induction X with
  | nil => cases hx
  | cons a as ih =>
    unfold mapExcept
    rcases List.mem_cons.mp hx with h | h
    · subst h
      cases hfa : f x with
      | error e => exact ⟨e, rfl⟩
      | ok y => exact absurd hfa (hbad y)
    · cases hfa : f a with
      | error e => exact ⟨e, rfl⟩
      | ok y =>
        rcases ih h with ⟨e, he⟩
        rw [he]
        exact ⟨e, rfl⟩

theorem process_batch_ok (mv : ℕ) (X : List (List ℤ))
    (h : ∀ col ∈ X, ∀ s ∈ col, 0 ≤ s ∧ s < (mv : ℤ) + 1) :
    process_batch mv X = .ok (X.map (cdfRow mv (X.headD []).length)) := by
  unfold process_batch
  rw [if_pos]
  rw [List.all_eq_true]
  intro col hcol
  rw [List.all_eq_true]
  intro s hs
  simp only [Bool.and_eq_true, decide_eq_true_eq]
  exact ⟨(h col hcol s hs).1, (h col hcol s hs).2⟩

theorem process_batch_error (mv : ℕ) (X : List (List ℤ)) (col : List ℤ) (s : ℤ)
    (hcol : col ∈ X) (hs : s ∈ col) (hbad : ¬(0 ≤ s ∧ s < (mv : ℤ) + 1)) :
    ∃ e, process_batch mv X = .error e := by
  unfold process_batch
  rw [if_neg]
  · exact ⟨_, rfl⟩
  intro hall
  rw [List.all_eq_true] at hall
  have h1 := hall col hcol
  rw [List.all_eq_true] at h1
  have h2 := h1 s hs
  simp only [Bool.and_eq_true, decide_eq_true_eq] at h2
  exact hbad h2

/-- Property bundle for one per-channel CDF row. -/
theorem cdfRow_props (col : List ℤ) (T : ℕ) (hT : 0 < T) (hlen : col.length = T)
    (hv : ∀ s ∈ col, 0 ≤ s ∧ s ≤ 32) :
    (cdfRow 32 T col).length = 33 ∧
    (cdfRow 32 T col).head? = some 0 ∧
    List.Chain' (· ≤ ·) (cdfRow 32 T col) ∧
    (∀ q ∈ cdfRow 32 T col, 0 ≤ q ∧ q ≤ 1) ∧
    (∀ a : ℕ, a < 33 → (cdfRow 32 T col).getD a 0 = (countLt col a : ℚ) / (T : ℚ)) ∧
    (cdfRow 32 T col).getD 32 0 = 1 - (countEq col 32 : ℚ) / (T : ℚ) := by
  have h0 : ∀ s ∈ col, 0 ≤ s := fun s hs => (hv s hs).1
  have hTQ : (0 : ℚ) < (T : ℚ) := by exact_mod_cast hT
  rw [cdfRow_eq 32 T col h0]
  refine ⟨by simp, ?_, ?_, ?_, ?_, ?_⟩
  · rw [List.range_succ_eq_map, List.map_cons]
    simp [countLt_zero col h0]
  · rw [List.chain'_iff_get]
    intro i hi
    simp only [List.length_map, List.length_range] at hi
    simp only [List.get_eq_getElem, List.getElem_map, List.getElem_range]
    have hm : (countLt col i : ℚ) ≤ (countLt col (i + 1) : ℚ) := by
      exact_mod_cast countLt_mono col i (i + 1) (by omega)
    exact div_le_div_of_nonneg_right hm hTQ.le
  · intro q hq
    rcases List.mem_map.mp hq with ⟨a, _, ha⟩
    subst ha
    constructor
    · positivity
    · rw [div_le_one hTQ]
      have := countLt_le_length col a
      rw [hlen] at this
      exact_mod_cast this
  · intro a ha
    rw [List.getD_eq_getElem _ _ (by simpa using ha)]
    simp only [List.getElem_map, List.getElem_range]
  · rw [List.getD_eq_getElem _ _ (by simp)]
    simp only [List.getElem_map, List.getElem_range]
    have hall : ∀ s ∈ col, s < ((33 : ℕ) : ℤ) := by
      intro s hs
      have := (hv s hs).2
      push_cast
      omega
    have h33 : countLt col 33 = T := by rw [countLt_eq_length col 33 hall, hlen]
    have hsplit : countLt col 32 + countEq col 32 = T := by
      have hstep : countLt col 33 = countLt col 32 + countEq col 32 := by
        have := countLt_succ col 32
        norm_num at this
        exact this
      omega
    have hcast : (countLt col 32 : ℚ) = (T : ℚ) - (countEq col 32 : ℚ) := by
      have : ((countLt col 32 + countEq col 32 : ℕ) : ℚ) = ((T : ℕ) : ℚ) := by
        exact_mod_cast congrArg (Nat.cast : ℕ → ℚ) hsplit
      push_cast at this
      linarith
    rw [hcast]
    field_simp

theorem headD_length_of_shape (layer : List (List ℤ)) (T C : ℕ) (hT : 0 < T)
    (hlen : layer.length = T) (hrow : ∀ row ∈ layer, row.length = C) :
    (layer.headD []).length = C := by
  cases layer with
  | nil => simp at hlen; omega
  | cons a as => exact hrow a (List.mem_cons_self a as)

/-- C6: on a quantized symbol bank of `L` rectangular `[T, C]` layers with
all symbols in `[0, 32]` and `T ≥ 1`, the estimator succeeds and its CDF has
shape `[L, C, 33]`, entries in `[0, 1]`, non-decreasing rows starting at 0,
entry `a` of channel `c` equal to the fraction of tokens whose symbol is
strictly below `a`, and last entry `1 - p[c, 32]`. -/
theorem C6_cdf_estimator (X : List (List (List ℤ))) (T C : ℕ)
    (hT : 0 < T)
    (hshape : ∀ layer ∈ X, layer.length = T ∧ ∀ row ∈ layer, row.length = C)
    (hvals : ∀ layer ∈ X, ∀ row ∈ layer, ∀ s ∈ row, 0 ≤ s ∧ s ≤ 32) :
    ∃ cdf, compute_cdf X = .ok cdf ∧
      cdf.length = X.length ∧
      (∀ lc ∈ cdf, lc.length = C) ∧
      (∀ lc ∈ cdf, ∀ row ∈ lc, row.length = 33) ∧
      (∀ lc ∈ cdf, ∀ row ∈ lc, row.head? = some 0) ∧
      (∀ lc ∈ cdf, ∀ row ∈ lc, List.Chain' (· ≤ ·) row) ∧
      (∀ lc ∈ cdf, ∀ row ∈ lc, ∀ q ∈ row, 0 ≤ q ∧ q ≤ 1) ∧
      (∀ l : ℕ, l < X.length → ∀ c : ℕ, c < C → ∀ a : ℕ, a < 33 →
        ((cdf.getD l []).getD c []).getD a 0 =
          (countLt ((X.getD l []).map (fun row => row.getD c 0)) a : ℚ) / (T : ℚ)) ∧
      (∀ l : ℕ, l < X.length → ∀ c : ℕ, c < C →
        ((cdf.getD l []).getD c []).getD 32 0 =
          1 - (countEq ((X.getD l []).map (fun row => row.getD c 0)) 32 : ℚ) / (T : ℚ)) := by
  -- canonical per-layer facts
  have hcolfacts : ∀ layer ∈ X, ∀ c : ℕ, c < C →
      (layer.map (fun row => row.getD c 0)).length = T ∧
      (∀ s ∈ layer.map (fun row => row.getD c 0), 0 ≤ s ∧ s ≤ 32) := by
    intro layer hlayer c hc
    constructor
    · rw [List.length_map, (hshape layer hlayer).1]
    · intro s hs
      rcases List.mem_map.mp hs with ⟨row, hrow, hrs⟩
      have hcl : c < row.length := by
        rw [(hshape layer hlayer).2 row hrow]; exact hc
      rw [List.getD_eq_getElem _ _ hcl] at hrs
      exact hrs ▸ hvals layer hlayer row hrow _ (List.getElem_mem hcl)
  have htr : ∀ layer ∈ X, transposeTC layer =
      (List.range C).map (fun c => layer.map (fun row => row.getD c 0)) := by
    intro layer hlayer
    unfold transposeTC
    rw [headD_length_of_shape layer T C hT (hshape layer hlayer).1 (hshape layer hlayer).2]
  -- the per-layer CDF with the source's own token count equals the canonical one
  have hglayer : ∀ layer ∈ X,
      (transposeTC layer).map (cdfRow 32 ((transposeTC layer).headD []).length) =
        (List.range C).map (fun c => cdfRow 32 T (layer.map (fun row => row.getD c 0))) := by
    intro layer hlayer
    rw [htr layer hlayer]
    rcases Nat.eq_zero_or_pos C with hC | hC
    · subst hC; rfl
    · have hnt : (((List.range C).map (fun c => layer.map (fun row => row.getD c 0))).headD []).length = T := by
        have hr : List.range C = 0 :: (List.range (C - 1)).map Nat.succ := by
          rw [← List.range_succ_eq_map]
          congr 1
          omega
        rw [hr, List.map_cons, List.headD_cons, List.length_map, (hshape layer hlayer).1]
      rw [hnt, List.map_map]
      rfl
  -- the estimator succeeds layer by layer
  have hok : compute_cdf X = .ok (X.map (fun layer =>
      (transposeTC layer).map (cdfRow 32 ((transposeTC layer).headD []).length))) := by
    apply mapExcept_ok_of
    intro layer hlayer
    rw [process_batch_ok]
    intro col hcol s hs
    rw [htr layer hlayer] at hcol
    rcases List.mem_map.mp hcol with ⟨c, hc, hceq⟩
    rw [List.mem_range] at hc
    subst hceq
    have := (hcolfacts layer hlayer c hc).2 s hs
    constructor
    · exact this.1
    · have := this.2
      omega
  refine ⟨_, hok, ?_, ?_, ?_, ?_, ?_, ?_, ?_, ?_⟩
  · simp
  · intro lc hlc
    rcases List.mem_map.mp hlc with ⟨layer, hlayer, hleq⟩
    rw [← hleq, hglayer layer hlayer]
    simp
  · intro lc hlc row hrow
    rcases List.mem_map.mp hlc with ⟨layer, hlayer, hleq⟩
    rw [← hleq, hglayer layer hlayer] at hrow
    rcases List.mem_map.mp hrow with ⟨c, hc, hceq⟩
    rw [List.mem_range] at hc
    rw [← hceq]
    exact (cdfRow_props _ T hT (hcolfacts layer hlayer c hc).1 (hcolfacts layer hlayer c hc).2).1
  · intro lc hlc row hrow
    rcases List.mem_map.mp hlc with ⟨layer, hlayer, hleq⟩
    rw [← hleq, hglayer layer hlayer] at hrow
    rcases List.mem_map.mp hrow with ⟨c, hc, hceq⟩
    rw [List.mem_range] at hc
    rw [← hceq]
    exact (cdfRow_props _ T hT (hcolfacts layer hlayer c hc).1 (hcolfacts layer hlayer c hc).2).2.1
  · intro lc hlc row hrow
    rcases List.mem_map.mp hlc with ⟨layer, hlayer, hleq⟩
    rw [← hleq, hglayer layer hlayer] at hrow
    rcases List.mem_map.mp hrow with ⟨c, hc, hceq⟩
    rw [List.mem_range] at hc
    rw [← hceq]
    exact (cdfRow_props _ T hT (hcolfacts layer hlayer c hc).1 (hcolfacts layer hlayer c hc).2).2.2.1
  · intro lc hlc row hrow
    rcases List.mem_map.mp hlc with ⟨layer, hlayer, hleq⟩
    rw [← hleq, hglayer layer hlayer] at hrow
    rcases List.mem_map.mp hrow with ⟨c, hc, hceq⟩
    rw [List.mem_range] at hc
    rw [← hceq]
    exact (cdfRow_props _ T hT (hcolfacts layer hlayer c hc).1 (hcolfacts layer hlayer c hc).2).2.2.2.1
  · intro l hl c hc a ha
    have hXl : X.getD l [] ∈ X := by
      rw [List.getD_eq_getElem _ _ hl]
      exact List.getElem_mem hl
    have hmap : (X.map (fun layer =>
        (transposeTC layer).map (cdfRow 32 ((transposeTC layer).headD []).length))).getD l [] =
        (List.range C).map (fun c => cdfRow 32 T ((X.getD l []).map (fun row => row.getD c 0))) := by
      rw [List.getD_eq_getElem _ _ (by simpa using hl), List.getElem_map]
      rw [List.getD_eq_getElem _ _ hl] at hXl ⊢
      exact hglayer _ hXl
    rw [hmap]
    have hgetc : ((List.range C).map (fun j => cdfRow 32 T ((X.getD l []).map (fun row => row.getD j 0)))).getD c [] =
        cdfRow 32 T ((X.getD l []).map (fun row => row.getD c 0)) := by
      rw [List.getD_eq_getElem _ _ (by simpa using hc), List.getElem_map, List.getElem_range]
    rw [hgetc]
    exact (cdfRow_props _ T hT (hcolfacts _ hXl c hc).1 (hcolfacts _ hXl c hc).2).2.2.2.2.1 a ha
  · intro l hl c hc
    have hXl : X.getD l [] ∈ X := by
      rw [List.getD_eq_getElem _ _ hl]
      exact List.getElem_mem hl
    have hmap : (X.map (fun layer =>
        (transposeTC layer).map (cdfRow 32 ((transposeTC layer).headD []).length))).getD l [] =
        (List.range C).map (fun c => cdfRow 32 T ((X.getD l []).map (fun row => row.getD c 0))) := by
      rw [List.getD_eq_getElem _ _ (by simpa using hl), List.getElem_map]
      rw [List.getD_eq_getElem _ _ hl] at hXl ⊢
      exact hglayer _ hXl
    rw [hmap]
    have hgetc : ((List.range C).map (fun j => cdfRow 32 T ((X.getD l []).map (fun row => row.getD j 0)))).getD c [] =
        cdfRow 32 T ((X.getD l []).map (fun row => row.getD c 0)) := by
      rw [List.getD_eq_getElem _ _ (by simpa using hc), List.getElem_map, List.getElem_range]
    rw [hgetc]
    exact (cdfRow_props _ T hT (hcolfacts _ hXl c hc).1 (hcolfacts _ hXl c hc).2).2.2.2.2.2

/-- Witness for C6 at a concrete symbol tensor (one layer, two tokens, one
channel, symbols 0 and 32). -/
theorem C6_cdf_estimator_witness :
    ∃ cdf, compute_cdf [[[(0 : ℤ)], [(32 : ℤ)]]] = .ok cdf ∧
      cdf.length = 1 ∧ (∀ lc ∈ cdf, lc.length = 1) := by
  rcases C6_cdf_estimator [[[(0 : ℤ)], [(32 : ℤ)]]] 2 1 (by omega) (by decide) (by decide)
    with ⟨cdf, hok, hlen, hC, _⟩
  exact ⟨cdf, hok, by simpa using hlen, hC⟩

/-! ## CDF normalizer (`_convert_to_int_and_normalize`, `_renorm_cast_cdf_`) -/

/-- The in-place `cdf.add_(torch.arange(Lp))` on int16: elementwise wrapped
addition of the ramp `i, i+1, …`. -/
def rampAddFrom : ℤ → List ℤ → List ℤ
  | _, [] => []
  | i, x :: xs => c16 (x + i) :: rampAddFrom (i + 1) xs

/-- `_convert_to_int_and_normalize` on one last-axis row: multiply by
`2^16` (minus `Lp - 1` when normalizing), round, cast to int16, and (when
normalizing) add the ramp. -/
def convertRow (needsNorm : Bool) (row : List ℚ) : List ℤ :=
  let Lp := row.length
  let factor : ℚ := 2 ^ 16
  let new_max_value : ℚ := if needsNorm then factor - ((Lp : ℚ) - 1) else factor
  let cdfInt := row.map (fun x => c16 (roundHE (x * new_max_value)))
  if needsNorm then rampAddFrom 0 cdfInt else cdfInt

/-- `_convert_to_int_and_normalize(cdf_float, needs_normalization)`: the
operation acts independently along the last axis; leading dimensions are
flattened into a list of rows. -/
def _convert_to_int_and_normalize (needsNorm : Bool) (cdf : List (List ℚ)) :
    List (List ℤ) :=
  cdf.map (convertRow needsNorm)

/-- `_renorm_cast_cdf_` on one last-axis row: `f = 2^precision`, scale by
`(f - (Lp - 1)) / finals` with `finals = 1`, round, cast to int16, add the
ramp. -/
def renormRow (precision : ℕ) (row : List ℚ) : List ℤ :=
  let Lp := row.length
  let f : ℚ := 2 ^ precision
  let finals : ℚ := 1
  rampAddFrom 0 (row.map (fun x => c16 (roundHE (x * ((f - ((Lp : ℚ) - 1)) / finals)))))

/-- `_renorm_cast_cdf_(cdf, precision)`, rows being last-axis slices. -/
def _renorm_cast_cdf_ (cdf : List (List ℚ)) (precision : ℕ) : List (List ℤ) :=
  cdf.map (renormRow precision)

/-- C8: the persistence normalization `_renorm_cast_cdf_(·, 16)` is
pointwise identical to the coder-path normalization
`_convert_to_int_and_normalize(·, needs_normalization := true)`. -/
theorem C8_renorm_eq_convert (cdf : List (List ℚ)) :
    _renorm_cast_cdf_ cdf 16 = _convert_to_int_and_normalize true cdf := by
  unfold _renorm_cast_cdf_ _convert_to_int_and_normalize
  apply List.map_congr_left
  intro row _
  unfold renormRow convertRow
  simp [div_one]

/-- Proof-level exact (unwrapped) version of the ramp addition. -/
def rampAddP : ℤ → List ℤ → List ℤ
  | _, [] => []
  | i, y :: ys => (y + i) :: rampAddP (i + 1) ys

theorem uint16_c16_add (y i : ℤ) : uint16 (c16 (c16 y + i)) = uint16 (y + i) := by
  rw [uint16_c16]
  show (c16 y + i) % 65536 = (y + i) % 65536
  conv_lhs => rw [Int.add_emod]
  conv_rhs => rw [Int.add_emod]
  congr 2
  exact uint16_c16 y

/-- Under the no-overflow side conditions, the wrapped ramp addition viewed
as unsigned 16-bit equals the exact ramp addition. -/
theorem rampAdd_uint16 (f : ℚ → ℤ) : ∀ (xs : List ℚ) (i : ℤ), 0 ≤ i →
    (∀ x ∈ xs, 0 ≤ f x ∧ f x + i + xs.length ≤ 65536) →
    (rampAddFrom i (xs.map (fun x => c16 (f x)))).map uint16 = rampAddP i (xs.map f) := by
  intro xs
  induction xs with
  | nil => intro i _ _; rfl
  | cons y rest ih =>
    intro i hi hb
    simp only [List.map_cons, rampAddFrom, rampAddP]
    congr 1
    · rw [uint16_c16_add]
      apply uint16_eq_self
      · have := (hb y (List.mem_cons_self _ _)).1
        omega
      · have h2 := (hb y (List.mem_cons_self _ _)).2
        have hlen : (0 : ℤ) ≤ (rest.length : ℤ) := Int.ofNat_nonneg _
        simp only [List.length_cons] at h2
        push_cast at h2
        omega
    · apply ih (i + 1) (by omega)
      intro z hz
      have hzb := hb z (List.mem_cons_of_mem _ hz)
      refine ⟨hzb.1, ?_⟩
      have h2 := hzb.2
      simp only [List.length_cons] at h2
      push_cast at h2 ⊢
      omega

theorem rampAddP_length : ∀ (ys : List ℤ) (i : ℤ), (rampAddP i ys).length = ys.length := by
  intro ys
  induction ys with
  | nil => intro i; rfl
  | cons y rest ih => intro i; simp [rampAddP, ih]

theorem rampAddP_chain : ∀ (ys : List ℤ) (i : ℤ), List.Chain' (· ≤ ·) ys →
    List.Chain' (· < ·) (rampAddP i ys) := by
  intro ys
  induction ys with
  | nil => intro i _; exact List.chain'_nil
  | cons y rest ih =>
    intro i hch
    cases rest with
    | nil => exact List.chain'_singleton _
    | cons z rest2 =>
      rw [List.chain'_cons] at hch
      have hr := ih (i + 1) hch.2
      simp only [rampAddP]
      rw [List.chain'_cons]
      constructor
      · have := hch.1
        omega
      · exact hr

theorem rampAddP_head (y : ℤ) (ys : List ℤ) (i : ℤ) :
    (rampAddP i (y :: ys)).head? = some (y + i) := rfl

/-- C5, amended: if every last-axis row of the floating CDF is
non-decreasing, starts at 0, and has entries `x` with `0 ≤ x` and
`x * M < M - 1/2` for `M = 2^16 - (Lp - 1)` (in particular entries of
`[0, 1)` that are not too close to 1), then the normalized integer CDF,
read as unsigned 16-bit, starts at 0, is strictly increasing along the
last axis, and stays within `[0, 2^16 - 1]`. -/
theorem C5_normalizer (cdf : List (List ℚ))
    (hrows : ∀ row ∈ cdf,
      row.head? = some 0 ∧
      List.Chain' (· ≤ ·) row ∧
      ∀ x ∈ row, 0 ≤ x ∧
        x * ((2 : ℚ) ^ 16 - ((row.length : ℚ) - 1)) <
          ((2 : ℚ) ^ 16 - ((row.length : ℚ) - 1)) - 1/2) :
    ∀ orow ∈ _convert_to_int_and_normalize true cdf,
      (orow.map uint16).head? = some 0 ∧
      List.Chain' (· < ·) (orow.map uint16) ∧
      (∀ z ∈ orow.map uint16, 0 ≤ z ∧ z ≤ 65535) := by
  intro orow horow
  rcases List.mem_map.mp horow with ⟨row, hrow, hroweq⟩
  obtain ⟨hhead, hchain, hbound⟩ := hrows row hrow
  -- abbreviations
  have hbnd := hbound
  obtain ⟨x0, rest, hx0, hrowstruct⟩ : ∃ x0 rest, x0 = 0 ∧ row = x0 :: rest := by
    cases hrw : row with
    | nil => rw [hrw] at hhead; cases hhead
    | cons a r =>
      rw [hrw] at hhead
      simp only [List.head?_cons, Option.some.injEq] at hhead
      exact ⟨a, r, hhead, rfl⟩
  have hx0mem : (0 : ℚ) ∈ row := by rw [hrowstruct, ← hx0]; exact List.mem_cons_self _ _
  have hMint_cast : ((65537 - (row.length : ℤ) : ℤ) : ℚ) =
      (2 : ℚ) ^ 16 - ((row.length : ℚ) - 1) := by push_cast; ring
  have hM_half : 1/2 < (2 : ℚ) ^ 16 - ((row.length : ℚ) - 1) := by
    have := (hbound 0 hx0mem).2
    rw [zero_mul] at this
    linarith
  have hMint_pos : (1 : ℤ) ≤ 65537 - (row.length : ℤ) := by
    have h0 : (0 : ℚ) < ((65537 - (row.length : ℤ) : ℤ) : ℚ) := by
      rw [hMint_cast]
      linarith
    have h1 : (0 : ℤ) < 65537 - (row.length : ℤ) := Int.cast_pos.mp h0
    omega
  have hM_nonneg : (0 : ℚ) ≤ (2 : ℚ) ^ 16 - ((row.length : ℚ) - 1) := by linarith
  -- the rounded (pre-cast) values
  have hys_bounds : ∀ y ∈ row.map
      (fun x => roundHE (x * ((2 : ℚ) ^ 16 - ((row.length : ℚ) - 1)))),
      0 ≤ y ∧ y ≤ (65537 - (row.length : ℤ)) - 1 := by
    intro y hy
    rcases List.mem_map.mp hy with ⟨x, hx, hxy⟩
    constructor
    · rw [← hxy]
      apply le_roundHE
      push_cast
      exact mul_nonneg (hbound x hx).1 hM_nonneg
    · rw [← hxy]
      apply roundHE_le_of_lt
      have h1 := (hbound x hx).2
      have h2 : (((65537 - (row.length : ℤ)) - 1 : ℤ) : ℚ) =
          ((2 : ℚ) ^ 16 - ((row.length : ℚ) - 1)) - 1 := by push_cast; ring
      rw [h2]
      linarith
  have hys_chain : List.Chain' (· ≤ ·)
      (row.map (fun x => roundHE (x * ((2 : ℚ) ^ 16 - ((row.length : ℚ) - 1))))) := by
    rw [List.chain'_map]
    apply hchain.imp
    intro a b hab
    exact roundHE_mono _ _ (mul_le_mul_of_nonneg_right hab hM_nonneg)
  have hconv : convertRow true row = rampAddFrom 0
      (row.map (fun x => c16 (roundHE (x * ((2 : ℚ) ^ 16 - ((row.length : ℚ) - 1)))))) := rfl
  have huns : (convertRow true row).map uint16 =
      rampAddP 0 (row.map (fun x => roundHE (x * ((2 : ℚ) ^ 16 - ((row.length : ℚ) - 1))))) := by
    rw [hconv]
    apply rampAdd_uint16 _ row 0 le_rfl
    intro x hx
    have hym : roundHE (x * ((2 : ℚ) ^ 16 - ((row.length : ℚ) - 1))) ∈
        row.map (fun x => roundHE (x * ((2 : ℚ) ^ 16 - ((row.length : ℚ) - 1)))) :=
      List.mem_map_of_mem _ hx
    refine ⟨(hys_bounds _ hym).1, ?_⟩
    have h2 := (hys_bounds _ hym).2
    omega
  subst hroweq
  refine ⟨?_, ?_, ?_⟩
  · rw [huns, hrowstruct, hx0]
    rw [List.map_cons, rampAddP_head]
    have hz : roundHE ((0 : ℚ) *
        ((2 : ℚ) ^ 16 - (((((0 : ℚ) :: rest).length : ℕ) : ℚ) - 1))) = 0 :=
      roundHE_ofInt 0 _ (by push_cast; ring)
    rw [hz, add_zero]
  · rw [huns]
    exact rampAddP_chain _ 0 hys_chain
  · intro z hz
    rcases List.mem_map.mp hz with ⟨w, _, hw⟩
    rw [← hw]
    have h1 := uint16_nonneg w
    have h2 := uint16_lt w
    omega

/-- Witness for the amended C5 theorem at the concrete CDF `[[0, 1/2]]`. -/
theorem C5_normalizer_witness :
    ((convertRow true [(0 : ℚ), 1/2]).map uint16).head? = some 0 ∧
    List.Chain' (· < ·) ((convertRow true [(0 : ℚ), 1/2]).map uint16) := by
  have hmem : convertRow true [(0 : ℚ), 1/2] ∈
      _convert_to_int_and_normalize true [[(0 : ℚ), 1/2]] :=
    List.mem_singleton.mpr rfl
  have h := C5_normalizer [[(0 : ℚ), 1/2]] ?_ (convertRow true [(0 : ℚ), 1/2]) hmem
  · exact ⟨h.1, h.2.1⟩
  · intro row hrow
    rw [List.mem_singleton] at hrow
    subst hrow
    refine ⟨rfl, ?_, ?_⟩
    · rw [List.chain'_cons]
      exact ⟨by norm_num, List.chain'_singleton _⟩
    · intro x hx
      rw [List.mem_cons] at hx
      rcases hx with h | h
      · subst h
        norm_num
      · rw [List.mem_singleton] at h
        subst h
        norm_num

/-- C5 counterexample: the CDF row `[0, 131071/131072]` satisfies the
claim's hypotheses (entries in `[0, 1)`, non-decreasing, first entry 0),
yet `round(131071/131072 * 65535) = 65535` wraps to int16 `-1`, the ramp
brings it to 0, and the unsigned view of the normalized row is `[0, 0]` —
not strictly increasing.  So the normalizer's contract fails for floating
CDF entries close enough to 1. -/
theorem C5_counterexample :
    (∀ x ∈ [(0 : ℚ), 131071/131072], 0 ≤ x ∧ x < 1) ∧
    List.Chain' (· ≤ ·) [(0 : ℚ), 131071/131072] ∧
    [(0 : ℚ), 131071/131072].head? = some 0 ∧
    (convertRow true [(0 : ℚ), 131071/131072]).map uint16 = [0, 0] ∧
    ¬ List.Chain' (· < ·) ((convertRow true [(0 : ℚ), 131071/131072]).map uint16) := by
  have h1x : roundHE ((0 : ℚ)) = 0 := roundHE_ofInt 0 _ (by norm_num)
  have h2x : roundHE ((8589737985/131072 : ℚ)) = 65535 := by
    have h := roundHE_eq_of_gt_half 65534 ((8589737985/131072 : ℚ)) (by norm_num) (by norm_num)
    rw [h]
    norm_num
  have heval : (convertRow true [(0 : ℚ), 131071/131072]).map uint16 = [0, 0] := by
    norm_num [convertRow, rampAddFrom, h1x, h2x, c16, uint16]
  refine ⟨?_, ?_, rfl, heval, ?_⟩
  · intro x hx
    rw [List.mem_cons] at hx
    rcases hx with h | h
    · subst h
      norm_num
    · rw [List.mem_singleton] at h
      subst h
      norm_num
  · rw [List.chain'_cons]
    exact ⟨by norm_num, List.chain'_singleton _⟩
  · rw [heval, List.chain'_cons]
    intro hcontra
    exact absurd hcontra.1 (lt_irrefl 0)

/-! ## Entropy coder driver, blob assembler and facade (`encode_function`,
`encode_function_gpu`, `CacheGenSerializer`) -/

/-- KV input tensor `[L, 2, T, H, D]` as nested lists. -/
abbrev Tensor5 := List (List (List (List (List ℚ))))

/-- `_split_kv(kv)` K half: reshape `[L, 2, T, H, D]` to `[L, 2, T, H*D]`
(the head-dims flatten is the per-token `List.flatten`) and take index 0 of
the unbind along axis 1. -/
def split_k (kv : Tensor5) : List (List (List ℚ)) :=
  kv.map (fun layer => (layer.getD 0 []).map List.flatten)

/-- `_split_kv(kv)` V half: index 1 of the unbind along axis 1. -/
def split_v (kv : Tensor5) : List (List (List ℚ)) :=
  kv.map (fun layer => (layer.getD 1 []).map List.flatten)

/-- The encoder's quantized key dict (`encoder.quantized_key`), stacked in
layer order. -/
def quantized_key_bank (config : CacheGenConfig) (kv : Tensor5) :
    List (List (List ℤ)) :=
  (quantizeBank (keyBins config) (split_k kv)).1

/-- The encoder's quantized value dict (`encoder.quantized_value`), stacked
in layer order. -/
def quantized_value_bank (config : CacheGenConfig) (kv : Tensor5) :
    List (List (List ℤ)) :=
  (quantizeBank (valueBins config) (split_v kv)).1

/-- `concat_max(encoder.max_tensors_key)`. -/
def max_tensors_key_of (config : CacheGenConfig) (kv : Tensor5) : List (List ℚ) :=
  (quantizeBank (keyBins config) (split_k kv)).2

/-- `concat_max(encoder.max_tensors_value)`. -/
def max_tensors_value_of (config : CacheGenConfig) (kv : Tensor5) : List (List ℚ) :=
  (quantizeBank (valueBins config) (split_v kv)).2

/-- `num_heads, head_size = kv.shape[-2:]`. -/
def num_heads_of (kv : Tensor5) : ℕ := (((kv.headD []).headD []).headD []).length

def head_size_of (kv : Tensor5) : ℕ :=
  ((((kv.headD []).headD []).headD []).headD []).length

/-- `CacheGenEncoderOutput`: the self-describing blob record. -/
structure CacheGenEncoderOutput where
  bytestream : List ℕ
  start_indices : List ℤ
  cdf : List (List (List ℤ))
  max_tensors_key : List (List ℚ)
  max_tensors_value : List (List ℚ)
  num_heads : ℕ
  head_size : ℕ
deriving Repr, Inhabited

/-- The serial facade's offset bookkeeping (`start_indices +=
[current_index]; current_index += length` inside the coder loop of
`encode_function`). -/
def serialOffsetsFrom : ℕ → List (List ℕ) → List ℕ
  | _, [] => []
  | current_index, bits :: rest =>
    current_index :: serialOffsetsFrom (current_index + bits.length) rest

def serialOffsets (bytestreams : List (List ℕ)) : List ℕ :=
  serialOffsetsFrom 0 bytestreams

/-- The gpu facade's offset loop (`start_indices.append(index); index +=
len(bits)` over `all_bits_cuda` in `encode_function_gpu`). -/
def gpuOffsetsFrom : ℕ → List (List ℕ) → List ℕ
  | _, [] => []
  | index, bits :: rest => index :: gpuOffsetsFrom (index + bits.length) rest

def gpuOffsets (all_bits : List (List ℕ)) : List ℕ := gpuOffsetsFrom 0 all_bits

/-- The nested coder loop of `encode_function`: for each slab `l` of the
stacked symbol tensor and each token `i < chunk_size`, invoke the
arithmetic coder on the slab's integer CDF and the token's symbol row cast
to int16.  The source's slices `cdf_int[l:l+1]` and `encode_input[l:l+1,
i]` keep a leading length-1 axis consumed by the opaque coder; the model
passes the slab and row directly. -/
def coder_loop (coder : List (List ℤ) → List ℤ → List ℕ)
    (cdf_int : List (List (List ℤ))) (encode_input : List (List (List ℤ)))
    (nslabs chunk_size : ℕ) : List (List ℕ) :=
  (List.range nslabs).flatMap (fun l => (List.range chunk_size).map (fun i =>
    coder (cdf_int.getD l []) (((encode_input.getD l []).getD i []).map c16)))

/-- `encode_function(kv, config, chunk_size)`: split, quantize both banks,
estimate both CDFs (a `one_hot` range error aborts, keys first), stack,
normalize, run the serial coder loop, and assemble the output record.  The
`torch.tensor(start_indices).int()` cast of the offsets is the wrapping
int32 cast `c32`. -/
def encode_function (coder : List (List ℤ) → List ℤ → List ℕ)
    (kv : Tensor5) (config : CacheGenConfig) (chunk_size : ℕ) :
    Except String CacheGenEncoderOutput :=
  match compute_cdf (quantized_key_bank config kv) with
  | .error e => .error e
  | .ok cdf_k =>
    match compute_cdf (quantized_value_bank config kv) with
    | .error e => .error e
    | .ok cdf_v =>
      let cdf := cdf_k ++ cdf_v
      let encode_input := quantized_key_bank config kv ++ quantized_value_bank config kv
      let cdf_int := cdf.map (_convert_to_int_and_normalize true)
      let bytestreams := coder_loop coder cdf_int encode_input cdf.length chunk_size
      .ok { bytestream := bytestreams.flatten
          , start_indices := (serialOffsets bytestreams).map (fun (n : ℕ) => c32 (n : ℤ))
          , cdf := cdf.map (fun slab => _renorm_cast_cdf_ slab 16)
          , max_tensors_key := max_tensors_key_of config kv
          , max_tensors_value := max_tensors_value_of config kv
          , num_heads := num_heads_of kv
          , head_size := head_size_of kv }

def exceptIsOk : Except String α → Bool
  | .ok _ => true
  | .error _ => false

def extractOk [Inhabited α] : Except String α → α
  | .ok a => a
  | .error _ => default

/-- `CacheGenSerializer.__init__` state: the codec configuration selected
by model name, the engine `chunk_size`, and the layout `fmt`. -/
structure CacheGenSerializer where
  cachegen_config : CacheGenConfig
  chunk_size : ℕ
  fmt : String

/-- The dims-2-and-3 swap performed by `tensor.permute(0, 1, 3, 2, 4)` on
the inner `[H, T, D]` block (huggingface layout adapter). -/
def swap_tokens_heads (x : List (List (List ℚ))) : List (List (List ℚ)) :=
  (List.range ((x.headD []).length)).map (fun t => x.map (fun h => h.getD t []))

def permute_0_1_3_2_4 (t : Tensor5) : Tensor5 :=
  t.map (fun kvpair => kvpair.map swap_tokens_heads)

def adapt_layout (fmt : String) (t : Tensor5) : Tensor5 :=
  if fmt = "huggingface" then permute_0_1_3_2_4 t else t

/-- `ntokens = tensor.shape[2]`. -/
def ntokens_of (t : Tensor5) : ℕ := ((t.headD []).headD []).length

/-- `CacheGenSerializer.to_bytes`: transpose when the metadata format is
"huggingface", then call the encoder with `ntokens = tensor.shape[2]` as
the chunk size and serialize the output record (the pickling in
`CacheGenEncoderOutput.to_bytes` is outside `src/` and is modelled as the
opaque parameter `serialize`). -/
def to_bytes (serialize : CacheGenEncoderOutput → List ℕ)
    (coder : List (List ℤ) → List ℤ → List ℕ)
    (s : CacheGenSerializer) (tensor : Tensor5) : Except String (List ℕ) :=
  Except.map serialize
    (encode_function coder (adapt_layout s.fmt tensor) s.cachegen_config
      (ntokens_of (adapt_layout s.fmt tensor)))

/-- C7 counterexample: on a concrete blob list the serial facade's offset
loop and the gpu facade's offset loop assign exactly the same start
indices (both record the running index before advancing it by the blob
length), refuting the claimed divergence. -/
theorem C7_counterexample :
    serialOffsets [[7], [8, 9], []] = gpuOffsets [[7], [8, 9], []] ∧
    serialOffsets [[7], [8, 9], []] = [0, 1, 3] := by
  constructor
  · rfl
  · rfl

/-- C7, amended: the gpu facade's offset loop is extensionally equal to the
serial path's — for every ordered list of encoded blobs both assign the
same start indices; there is no divergence between the two paths' offset
computations. -/
theorem C7_offsets_agree (blobs : List (List ℕ)) :
    gpuOffsets blobs = serialOffsets blobs := by
  unfold gpuOffsets serialOffsets
  suffices h : ∀ (n : ℕ) (bs : List (List ℕ)), gpuOffsetsFrom n bs = serialOffsetsFrom n bs from
    h 0 blobs
  intro n bs
  induction bs generalizing n with
  | nil => rfl
  | cons b rest ih => simp [gpuOffsetsFrom, serialOffsetsFrom, ih]

theorem serialOffsetsFrom_length : ∀ (bs : List (List ℕ)) (n : ℕ),
    (serialOffsetsFrom n bs).length = bs.length := by
  intro bs
  induction bs with
  | nil => intro n; rfl
  | cons b rest ih => intro n; simp [serialOffsetsFrom, ih]

theorem serialOffsetsFrom_getD : ∀ (bs : List (List ℕ)) (n i : ℕ), i < bs.length →
    (serialOffsetsFrom n bs).getD i 0 = n + (((bs.take i).map List.length).sum) := by
  intro bs
  induction bs with
  | nil => intro n i hi; cases hi
  | cons b rest ih =>
    intro n i hi
    cases i with
    | zero => simp [serialOffsetsFrom]
    | succ j =>
      simp only [serialOffsetsFrom, List.getD_cons_succ, List.take_succ_cons, List.map_cons,
        List.sum_cons]
      rw [ih (n + b.length) j (by simpa using hi)]
      omega

theorem serialOffsetsFrom_chain : ∀ (bs : List (List ℕ)) (n : ℕ),
    List.Chain' (· ≤ ·) (serialOffsetsFrom n bs) := by
  intro bs
  induction bs with
  | nil => intro n; exact List.chain'_nil
  | cons b rest ih =>
    intro n
    rw [serialOffsetsFrom, List.chain'_cons']
    refine ⟨?_, ih (n + b.length)⟩
    intro y hy
    cases rest with
    | nil => cases hy
    | cons c rest2 =>
      simp only [serialOffsetsFrom, List.head?_cons, Option.mem_def, Option.some.injEq] at hy
      omega

theorem serialOffsetsFrom_mem : ∀ (bs : List (List ℕ)) (n x : ℕ),
    x ∈ serialOffsetsFrom n bs → n ≤ x ∧ x ≤ n + ((bs.map List.length).sum) := by
  intro bs
  induction bs with
  | nil => intro n x hx; cases hx
  | cons b rest ih =>
    intro n x hx
    rcases List.mem_cons.mp hx with h | h
    · subst h
      simp
    · have := ih (n + b.length) x h
      simp only [List.map_cons, List.sum_cons]
      omega

theorem serialOffsets_length (bs : List (List ℕ)) :
    (serialOffsets bs).length = bs.length := serialOffsetsFrom_length bs 0

theorem serialOffsets_getD (bs : List (List ℕ)) (i : ℕ) (h : i < bs.length) :
    (serialOffsets bs).getD i 0 = (((bs.take i).map List.length).sum) := by
  unfold serialOffsets
  rw [serialOffsetsFrom_getD bs 0 i h]
  omega

theorem serialOffsets_chain (bs : List (List ℕ)) :
    List.Chain' (· ≤ ·) (serialOffsets bs) := serialOffsetsFrom_chain bs 0

theorem serialOffsets_mem (bs : List (List ℕ)) (x : ℕ) (h : x ∈ serialOffsets bs) :
    x ≤ (bs.map List.length).sum := by
  have := serialOffsetsFrom_mem bs 0 x h
  omega

theorem mapExcept_ok_length (f : α → Except String β) : ∀ (X : List α) (ys : List β),
    mapExcept f X = .ok ys → ys.length = X.length := by
  intro X
  induction X with
  | nil =>
    intro ys h
    unfold mapExcept at h
    injection h with h'
    rw [← h']
    rfl
  | cons a as ih =>
    intro ys h
    unfold mapExcept at h
    cases hfa : f a with
    | error e => rw [hfa] at h; cases h
    | ok b =>
      rw [hfa] at h
      cases hrest : mapExcept f as with
      | error e => rw [hrest] at h; cases h
      | ok bs =>
        rw [hrest] at h
        injection h with h'
        rw [← h']
        simp [ih bs hrest]

/-- The value computed by a successful `process_batch`. -/
theorem process_batch_ok_val (mv : ℕ) (X : List (List ℤ)) (y : List (List ℚ))
    (h : process_batch mv X = .ok y) : y = X.map (cdfRow mv (X.headD []).length) := by
  unfold process_batch at h
  split at h
  · injection h with h'
    exact h'.symm
  · cases h

/-- The value computed by a successful `compute_cdf`, as a pure function. -/
def compute_cdf_val (X : List (List (List ℤ))) : List (List (List ℚ)) :=
  X.map (fun x => (transposeTC x).map (cdfRow 32 ((transposeTC x).headD []).length))

theorem compute_cdf_ok_val : ∀ (X : List (List (List ℤ))) (ys : List (List (List ℚ))),
    compute_cdf X = .ok ys → ys = compute_cdf_val X := by
  intro X
  induction X with
  | nil =>
    intro ys h
    unfold compute_cdf mapExcept at h
    injection h with h'
    rw [← h']
    rfl
  | cons a as ih =>
    intro ys h
    unfold compute_cdf mapExcept at h
    cases hfa : process_batch 32 (transposeTC a) with
    | error e => rw [hfa] at h; cases h
    | ok b =>
      rw [hfa] at h
      cases hrest : mapExcept (fun x => process_batch 32 (transposeTC x)) as with
      | error e => rw [hrest] at h; cases h
      | ok bs =>
        rw [hrest] at h
        injection h with h'
        rw [← h']
        unfold compute_cdf_val
        rw [List.map_cons]
        congr 1
        · exact process_batch_ok_val 32 (transposeTC a) b hfa
        · exact ih bs hrest

theorem quantizeBank_fst_length (binsOf : ℕ → ℕ) (fp : List (List (List ℚ))) :
    (quantizeBank binsOf fp).1.length = fp.length := by
  unfold quantizeBank
  simp

theorem quantized_key_bank_length (config : CacheGenConfig) (kv : Tensor5) :
    (quantized_key_bank config kv).length = kv.length := by
  unfold quantized_key_bank split_k
  rw [quantizeBank_fst_length]
  simp

theorem quantized_value_bank_length (config : CacheGenConfig) (kv : Tensor5) :
    (quantized_value_bank config kv).length = kv.length := by
  unfold quantized_value_bank split_v
  rw [quantizeBank_fst_length]
  simp

theorem coder_loop_length (coder : List (List ℤ) → List ℤ → List ℕ)
    (cdf_int encode_input : List (List (List ℤ))) (nslabs chunk_size : ℕ) :
    (coder_loop coder cdf_int encode_input nslabs chunk_size).length =
      nslabs * chunk_size := by
  unfold coder_loop
  induction nslabs with
  | zero => simp
  | succ k ih =>
    rw [List.range_succ, List.flatMap_append, List.length_append, ih]
    simp [Nat.succ_mul]

/-- The ordered blob list produced by a successful `encode_function` call
(the `bytestreams` accumulated by the serial coder loop). -/
def encoded_blobs (coder : List (List ℤ) → List ℤ → List ℕ)
    (kv : Tensor5) (config : CacheGenConfig) (chunk_size : ℕ) : List (List ℕ) :=
  coder_loop coder
    ((compute_cdf_val (quantized_key_bank config kv) ++
      compute_cdf_val (quantized_value_bank config kv)).map
        (_convert_to_int_and_normalize true))
    (quantized_key_bank config kv ++ quantized_value_bank config kv)
    (compute_cdf_val (quantized_key_bank config kv) ++
      compute_cdf_val (quantized_value_bank config kv)).length chunk_size

/-- Branch characterization of `encode_function`: both CDF estimations
succeed. -/
theorem encode_function_ok_val (coder : List (List ℤ) → List ℤ → List ℕ)
    (kv : Tensor5) (config : CacheGenConfig) (chunk_size : ℕ)
    (cdf_k cdf_v : List (List (List ℚ)))
    (hk : compute_cdf (quantized_key_bank config kv) = .ok cdf_k)
    (hv : compute_cdf (quantized_value_bank config kv) = .ok cdf_v) :
    encode_function coder kv config chunk_size = .ok
      { bytestream := (coder_loop coder
            ((cdf_k ++ cdf_v).map (_convert_to_int_and_normalize true))
            (quantized_key_bank config kv ++ quantized_value_bank config kv)
            (cdf_k ++ cdf_v).length chunk_size).flatten
      , start_indices := (serialOffsets (coder_loop coder
            ((cdf_k ++ cdf_v).map (_convert_to_int_and_normalize true))
            (quantized_key_bank config kv ++ quantized_value_bank config kv)
            (cdf_k ++ cdf_v).length chunk_size)).map (fun (n : ℕ) => c32 (n : ℤ))
      , cdf := (cdf_k ++ cdf_v).map (fun slab => _renorm_cast_cdf_ slab 16)
      , max_tensors_key := max_tensors_key_of config kv
      , max_tensors_value := max_tensors_value_of config kv
      , num_heads := num_heads_of kv
      , head_size := head_size_of kv } := by
  unfold encode_function
  rw [hk, hv]

/-- Branch characterization of `encode_function`: the key-bank CDF
estimation raises. -/
theorem encode_function_error_key (coder : List (List ℤ) → List ℤ → List ℕ)
    (kv : Tensor5) (config : CacheGenConfig) (chunk_size : ℕ) (e : String)
    (hk : compute_cdf (quantized_key_bank config kv) = .error e) :
    encode_function coder kv config chunk_size = .error e := by
  unfold encode_function
  rw [hk]

/-- Branch characterization of `encode_function`: the key-bank CDF
estimation succeeds and the value-bank one raises. -/
theorem encode_function_error_value (coder : List (List ℤ) → List ℤ → List ℕ)
    (kv : Tensor5) (config : CacheGenConfig) (chunk_size : ℕ)
    (cdf_k : List (List (List ℚ))) (e : String)
    (hk : compute_cdf (quantized_key_bank config kv) = .ok cdf_k)
    (hv : compute_cdf (quantized_value_bank config kv) = .error e) :
    encode_function coder kv config chunk_size = .error e := by
  unfold encode_function
  rw [hk, hv]

/-- C4, amended: for every successful encode of an `L`-layer KV tensor
with the chunk-size argument equal to the tensor's token count `T` and a
bytestream shorter than `2^31` bytes (so that every offset is exactly
representable in the int32 `start_indices` tensor), the returned
`start_indices` has length `2*L*T`, is non-decreasing, lies within
`[0, len(bytestream)]`, starts at 0, and records for each blob the
cumulative byte count of all previously appended blobs. -/
theorem C4_offsets (coder : List (List ℤ) → List ℤ → List ℕ)
    (kv : Tensor5) (config : CacheGenConfig) (chunk_size : ℕ)
    (hok : exceptIsOk (encode_function coder kv config chunk_size) = true)
    (hT : chunk_size = ntokens_of kv)
    (hbytes : (extractOk (encode_function coder kv config chunk_size)).bytestream.length
      < 2 ^ 31) :
    ((extractOk (encode_function coder kv config chunk_size)).start_indices.length
        = 2 * kv.length * chunk_size) ∧
    List.Chain' (· ≤ ·)
      (extractOk (encode_function coder kv config chunk_size)).start_indices ∧
    (∀ z ∈ (extractOk (encode_function coder kv config chunk_size)).start_indices,
      0 ≤ z ∧ z ≤
        ((extractOk (encode_function coder kv config chunk_size)).bytestream.length : ℤ)) ∧
    (0 < 2 * kv.length * chunk_size →
      (extractOk (encode_function coder kv config chunk_size)).start_indices.getD 0 0 = 0) ∧
    (∀ i : ℕ, i < 2 * kv.length * chunk_size →
      (extractOk (encode_function coder kv config chunk_size)).start_indices.getD i 0 =
        ((((encoded_blobs coder kv config chunk_size).take i).map List.length).sum : ℤ)) := by
  cases hk : compute_cdf (quantized_key_bank config kv) with
  | error e =>
    rw [encode_function_error_key coder kv config chunk_size e hk] at hok
    exact absurd hok (by simp [exceptIsOk])
  | ok cdf_k =>
    cases hv : compute_cdf (quantized_value_bank config kv) with
    | error e =>
      rw [encode_function_error_value coder kv config chunk_size cdf_k e hk hv] at hok
      exact absurd hok (by simp [exceptIsOk])
    | ok cdf_v =>
      rw [encode_function_ok_val coder kv config chunk_size cdf_k cdf_v hk hv] at hbytes ⊢
      simp only [extractOk] at hbytes ⊢
      rw [List.length_flatten] at hbytes
      have hkv : cdf_k = compute_cdf_val (quantized_key_bank config kv) :=
        compute_cdf_ok_val _ _ hk
      have hvv : cdf_v = compute_cdf_val (quantized_value_bank config kv) :=
        compute_cdf_ok_val _ _ hv
      subst hkv
      subst hvv
      unfold encoded_blobs
      have hlen2 : (compute_cdf_val (quantized_key_bank config kv) ++
          compute_cdf_val (quantized_value_bank config kv)).length = 2 * kv.length := by
        rw [List.length_append]
        unfold compute_cdf_val
        rw [List.length_map, List.length_map, quantized_key_bank_length,
          quantized_value_bank_length]
        ring
      have hbl : (coder_loop coder
          ((compute_cdf_val (quantized_key_bank config kv) ++
            compute_cdf_val (quantized_value_bank config kv)).map
              (_convert_to_int_and_normalize true))
          (quantized_key_bank config kv ++ quantized_value_bank config kv)
          (compute_cdf_val (quantized_key_bank config kv) ++
            compute_cdf_val (quantized_value_bank config kv)).length chunk_size).length =
          2 * kv.length * chunk_size := by
        rw [coder_loop_length, hlen2]
      -- within the int32 range the wrapping cast is the identity
      have hcast : (serialOffsets (coder_loop coder
          ((compute_cdf_val (quantized_key_bank config kv) ++
            compute_cdf_val (quantized_value_bank config kv)).map
              (_convert_to_int_and_normalize true))
          (quantized_key_bank config kv ++ quantized_value_bank config kv)
          (compute_cdf_val (quantized_key_bank config kv) ++
            compute_cdf_val (quantized_value_bank config kv)).length
          chunk_size)).map (fun (n : ℕ) => c32 (n : ℤ)) =
        (serialOffsets (coder_loop coder
          ((compute_cdf_val (quantized_key_bank config kv) ++
            compute_cdf_val (quantized_value_bank config kv)).map
              (_convert_to_int_and_normalize true))
          (quantized_key_bank config kv ++ quantized_value_bank config kv)
          (compute_cdf_val (quantized_key_bank config kv) ++
            compute_cdf_val (quantized_value_bank config kv)).length
          chunk_size)).map (fun (n : ℕ) => (n : ℤ)) := by
        apply List.map_congr_left
        intro x hx
        have hxs := serialOffsets_mem _ x hx
        have h31 : (2 : ℕ) ^ 31 = 2147483648 := by norm_num
        rw [h31] at hbytes
        apply c32_eq_self
        · omega
        · omega
      rw [hcast]
      refine ⟨?_, ?_, ?_, ?_, ?_⟩
      · rw [List.length_map, serialOffsets_length, hbl]
      · rw [List.chain'_map]
        apply (serialOffsets_chain _).imp
        intro a b hab
        exact_mod_cast hab
      · intro z hz
        rcases List.mem_map.mp hz with ⟨x, hx, hxz⟩
        have hb := serialOffsets_mem _ x hx
        rw [← hxz]
        constructor
        · exact Int.ofNat_nonneg x
        · rw [List.length_flatten]
          have hxle : x ≤ ((coder_loop coder
              ((compute_cdf_val (quantized_key_bank config kv) ++
                compute_cdf_val (quantized_value_bank config kv)).map
                  (_convert_to_int_and_normalize true))
              (quantized_key_bank config kv ++ quantized_value_bank config kv)
              (compute_cdf_val (quantized_key_bank config kv) ++
                compute_cdf_val (quantized_value_bank config kv)).length
              chunk_size).map List.length).sum := by omega
          exact_mod_cast hxle
      · intro hpos
        rw [List.getD_eq_getElem _ _
          (by rw [List.length_map, serialOffsets_length, hbl]; exact hpos),
          List.getElem_map]
        have hg := serialOffsets_getD (coder_loop coder
            ((compute_cdf_val (quantized_key_bank config kv) ++
              compute_cdf_val (quantized_value_bank config kv)).map
                (_convert_to_int_and_normalize true))
            (quantized_key_bank config kv ++ quantized_value_bank config kv)
            (compute_cdf_val (quantized_key_bank config kv) ++
              compute_cdf_val (quantized_value_bank config kv)).length
            chunk_size) 0 (by rw [hbl]; exact hpos)
        rw [List.getD_eq_getElem _ _ (by rw [serialOffsets_length, hbl]; exact hpos)] at hg
        rw [hg]
        simp
      · intro i hi
        rw [List.getD_eq_getElem _ _
          (by rw [List.length_map, serialOffsets_length, hbl]; exact hi),
          List.getElem_map]
        have hg := serialOffsets_getD (coder_loop coder
            ((compute_cdf_val (quantized_key_bank config kv) ++
              compute_cdf_val (quantized_value_bank config kv)).map
                (_convert_to_int_and_normalize true))
            (quantized_key_bank config kv ++ quantized_value_bank config kv)
            (compute_cdf_val (quantized_key_bank config kv) ++
              compute_cdf_val (quantized_value_bank config kv)).length
            chunk_size) i (by rw [hbl]; exact hi)
        rw [List.getD_eq_getElem _ _ (by rw [serialOffsets_length, hbl]; exact hi)] at hg
        rw [hg]


/-- C3, amended: a configuration with `bins = 34` does NOT fail — its
maximum shifted symbol is `2*(34/2 - 1) = 32`, inside the 33-symbol
alphabet.  What is fatal is any quantized symbol `≥ 33` (first reachable
when a band's bin count is at least 36): it aborts the encode inside CDF
estimation (`one_hot` raises), before any bytes are produced. -/
theorem C3_symbol_overflow_fatal (coder : List (List ℤ) → List ℤ → List ℕ)
    (kv : Tensor5) (config : CacheGenConfig) (chunk_size : ℕ)
    (h : ∃ layer ∈ quantized_key_bank config kv ++ quantized_value_bank config kv,
      (∀ row ∈ layer, row.length = (layer.headD []).length) ∧
      ∃ row ∈ layer, ∃ s ∈ row, (33 : ℤ) ≤ s) :
    ∃ e, encode_function coder kv config chunk_size = .error e := by
  obtain ⟨layer, hmem, hrect, row, hrow, s, hs, hge⟩ := h
  have hbad : ∃ col ∈ transposeTC layer, ∃ t ∈ col, (33 : ℤ) ≤ t := by
    obtain ⟨c, hc, hcs⟩ := List.mem_iff_getElem.mp hs
    refine ⟨layer.map (fun r => r.getD c 0), ?_, s, ?_, hge⟩
    · unfold transposeTC
      have hcr : c ∈ List.range ((layer.headD []).length) :=
        List.mem_range.mpr (by rw [← hrect row hrow]; exact hc)
      exact List.mem_map_of_mem _ hcr
    · have hgd : row.getD c 0 = s := by rw [List.getD_eq_getElem _ _ hc, hcs]
      rw [← hgd]
      exact List.mem_map_of_mem _ hrow
  have herr : ∃ e, process_batch 32 (transposeTC layer) = .error e := by
    obtain ⟨col, hcol, t, ht, htge⟩ := hbad
    exact process_batch_error 32 _ col t hcol ht (by omega)
  obtain ⟨e0, he0⟩ := herr
  rcases List.mem_append.mp hmem with hKey | hVal
  · have hkerr : ∃ e, compute_cdf (quantized_key_bank config kv) = .error e := by
      unfold compute_cdf
      apply mapExcept_error_of_mem _ _ layer hKey
      intro y hy
      rw [he0] at hy
      cases hy
    obtain ⟨e, he⟩ := hkerr
    exact ⟨e, encode_function_error_key coder kv config chunk_size e he⟩
  · cases hk : compute_cdf (quantized_key_bank config kv) with
    | error e => exact ⟨e, encode_function_error_key coder kv config chunk_size e hk⟩
    | ok cdf_k =>
      have hverr : ∃ e, compute_cdf (quantized_value_bank config kv) = .error e := by
        unfold compute_cdf
        apply mapExcept_error_of_mem _ _ layer hVal
        intro y hy
        rw [he0] at hy
        cases hy
      obtain ⟨e, he⟩ := hverr
      exact ⟨e, encode_function_error_value coder kv config chunk_size cdf_k e hk he⟩

/-- Witness KV tensor: one layer, one token, one head, head size one, all
values 1 (`[L, 2, T, H, D] = [1, 2, 1, 1, 1]`). -/
def kvW : Tensor5 := [[[[[1]]], [[[1]]]]]

/-- Evaluation helper: a quantized-and-shifted bank over the singleton
`[[[1]]]` input. -/
theorem bank_singleton_eval (binsOf : ℕ → ℕ) (n : ℤ)
    (hdiv : ((binsOf 0 : ℤ) / 2 - 1) = n) :
    (quantizeBank binsOf [[[(1 : ℚ)]]]).1 = [[[c8 (c8 n + n)]]] := by
  rw [quantizeBank_singleton]
  rw [show (1 : ℚ) * ((((binsOf 0 : ℤ) / 2 - 1 : ℤ) : ℚ) / |(1 : ℚ)|) = ((n : ℤ) : ℚ) from by
    rw [hdiv]; norm_num]
  rw [roundHE_intCast, hdiv]

/-- All-36 configuration (smallest bin count whose maximum shifted symbol,
`2*(36/2 - 1) = 34`, overflows the 33-symbol alphabet). -/
def cfg36 : CacheGenConfig := ⟨1, 36, 2, 36, 36, 1, 36, 36⟩

/-- Witness for the amended C3 theorem: with all bands at 36 bins and the
all-ones KV input, the symbol 34 appears and the encode fails. -/
theorem C3_symbol_overflow_witness :
    ∃ e, encode_function (fun _ _ => []) kvW cfg36 1 = .error e := by
  apply C3_symbol_overflow_fatal
  have hbk : quantized_key_bank cfg36 kvW = [[[(34 : ℤ)]]] := by
    have h1 : quantized_key_bank cfg36 kvW = (quantizeBank (keyBins cfg36) [[[(1 : ℚ)]]]).1 := rfl
    rw [h1, bank_singleton_eval (keyBins cfg36) 17 (by norm_num [keyBins, cfg36])]
    decide
  refine ⟨[[(34 : ℤ)]], ?_, by decide, [(34 : ℤ)], by decide, 34, by decide, by omega⟩
  rw [List.mem_append]
  left
  rw [hbk]
  exact List.mem_singleton.mpr rfl

/-- All-34 configuration (the bin count the claim asserts must fail). -/
def cfg34 : CacheGenConfig := ⟨1, 34, 2, 34, 34, 1, 34, 34⟩

/-- C3 counterexample: every band's bin count is 34, yet encoding the
all-ones KV input succeeds — the maximum shifted symbol is 32, within the
33-symbol alphabet, so no error is raised and bytes are produced. -/
theorem C3_counterexample :
    cfg34.key_first_bins = 34 ∧ cfg34.key_second_bins = 34 ∧ cfg34.key_third_bins = 34 ∧
    cfg34.value_first_bins = 34 ∧ cfg34.value_second_bins = 34 ∧
    exceptIsOk (encode_function (fun _ _ => []) kvW cfg34 1) = true := by
  refine ⟨rfl, rfl, rfl, rfl, rfl, ?_⟩
  have hbk : quantized_key_bank cfg34 kvW = [[[(32 : ℤ)]]] := by
    have h1 : quantized_key_bank cfg34 kvW = (quantizeBank (keyBins cfg34) [[[(1 : ℚ)]]]).1 := rfl
    rw [h1, bank_singleton_eval (keyBins cfg34) 16 (by norm_num [keyBins, cfg34])]
    decide
  have hbv : quantized_value_bank cfg34 kvW = [[[(32 : ℤ)]]] := by
    have h1 : quantized_value_bank cfg34 kvW = (quantizeBank (valueBins cfg34) [[[(1 : ℚ)]]]).1 := rfl
    rw [h1, bank_singleton_eval (valueBins cfg34) 16 (by norm_num [valueBins, cfg34])]
    decide
  have hck : compute_cdf (quantized_key_bank cfg34 kvW) =
      .ok (compute_cdf_val (quantized_key_bank cfg34 kvW)) := by
    rw [hbk]
    apply mapExcept_ok_of
    intro x hx
    rw [List.mem_singleton] at hx
    subst hx
    exact process_batch_ok 32 _ (by decide)
  have hcv : compute_cdf (quantized_value_bank cfg34 kvW) =
      .ok (compute_cdf_val (quantized_value_bank cfg34 kvW)) := by
    rw [hbv]
    apply mapExcept_ok_of
    intro x hx
    rw [List.mem_singleton] at hx
    subst hx
    exact process_batch_ok 32 _ (by decide)
  rw [encode_function_ok_val (fun _ _ => []) kvW cfg34 1 _ _ hck hcv]
  rfl

/-- On the witness input `kvW` with the all-8-bins configuration, the
key-bank CDF estimation succeeds (the single shifted symbol is 6). -/
theorem kvW_key_cdf_ok :
    compute_cdf (quantized_key_bank witConfig8 kvW) =
      .ok (compute_cdf_val (quantized_key_bank witConfig8 kvW)) := by
  have hbk : quantized_key_bank witConfig8 kvW = [[[(6 : ℤ)]]] := by
    have h1 : quantized_key_bank witConfig8 kvW =
        (quantizeBank (keyBins witConfig8) [[[(1 : ℚ)]]]).1 := rfl
    rw [h1, bank_singleton_eval (keyBins witConfig8) 3 (by norm_num [keyBins, witConfig8])]
    decide
  rw [hbk]
  apply mapExcept_ok_of
  intro x hx
  rw [List.mem_singleton] at hx
  subst hx
  exact process_batch_ok 32 _ (by decide)

/-- Likewise for the value bank. -/
theorem kvW_value_cdf_ok :
    compute_cdf (quantized_value_bank witConfig8 kvW) =
      .ok (compute_cdf_val (quantized_value_bank witConfig8 kvW)) := by
  have hbv : quantized_value_bank witConfig8 kvW = [[[(6 : ℤ)]]] := by
    have h1 : quantized_value_bank witConfig8 kvW =
        (quantizeBank (valueBins witConfig8) [[[(1 : ℚ)]]]).1 := rfl
    rw [h1, bank_singleton_eval (valueBins witConfig8) 3 (by norm_num [valueBins, witConfig8])]
    decide
  rw [hbv]
  apply mapExcept_ok_of
  intro x hx
  rw [List.mem_singleton] at hx
  subst hx
  exact process_batch_ok 32 _ (by decide)

/-- Combined slab count of an encode of `kvW` (one key slab plus one value
slab). -/
theorem kvW_cdf_len :
    (compute_cdf_val (quantized_key_bank witConfig8 kvW) ++
      compute_cdf_val (quantized_value_bank witConfig8 kvW)).length = 2 := by
  rw [List.length_append]
  unfold compute_cdf_val
  rw [List.length_map, List.length_map, quantized_key_bank_length,
    quantized_value_bank_length]
  rfl

/-- A coder port whose every blob is `2^31` bytes long, driving the
offsets past the int32 range. -/
def hugeCoder : List (List ℤ) → List ℤ → List ℕ :=
  fun _ _ => List.replicate (2 ^ 31) 0

/-- C4 counterexample: with a coder emitting `2^31`-byte blobs the encode
still succeeds and the chunk size still equals the token count, but the
second offset, `2^31`, wraps through the int32 cast
`torch.tensor(start_indices).int()` to `-2^31`: `start_indices` is
`[0, -2147483648]`, which is decreasing and escapes
`[0, len(bytestream)]`.  So the offsets property as stated fails for
encodes whose bytestream reaches `2^31` bytes. -/
theorem C4_counterexample :
    exceptIsOk (encode_function hugeCoder kvW witConfig8 1) = true ∧
    (1 : ℕ) = ntokens_of kvW ∧
    (extractOk (encode_function hugeCoder kvW witConfig8 1)).start_indices =
      [0, -2147483648] ∧
    ¬ List.Chain' (· ≤ ·)
      (extractOk (encode_function hugeCoder kvW witConfig8 1)).start_indices ∧
    ¬ (∀ z ∈ (extractOk (encode_function hugeCoder kvW witConfig8 1)).start_indices,
        0 ≤ z ∧ z ≤
          ((extractOk (encode_function hugeCoder kvW witConfig8 1)).bytestream.length : ℤ)) := by
  have henc := encode_function_ok_val hugeCoder kvW witConfig8 1 _ _
    kvW_key_cdf_ok kvW_value_cdf_ok
  have hloop : ∀ ci ei, coder_loop hugeCoder ci ei 2 1 =
      [List.replicate (2 ^ 31) 0, List.replicate (2 ^ 31) 0] := fun ci ei => rfl
  have hsi : (extractOk (encode_function hugeCoder kvW witConfig8 1)).start_indices =
      [0, -2147483648] := by
    rw [henc]
    simp only [extractOk]
    rw [kvW_cdf_len, hloop]
    have hgen : ∀ (a b : List ℕ), serialOffsets [a, b] = [0, 0 + a.length] :=
      fun a b => rfl
    rw [hgen, List.length_replicate]
    decide
  refine ⟨?_, rfl, hsi, ?_, ?_⟩
  · rw [henc]
    rfl
  · rw [hsi, List.chain'_cons]
    intro hcontra
    exact absurd hcontra.1 (by decide)
  · intro hall
    have hm : (-2147483648 : ℤ) ∈
        (extractOk (encode_function hugeCoder kvW witConfig8 1)).start_indices := by
      rw [hsi]
      exact List.mem_cons_of_mem _ (List.mem_singleton.mpr rfl)
    exact absurd (hall _ hm).1 (by decide)

/-- Witness for the amended C4 theorem at a concrete successful encode
(all-8-bins configuration, all-ones KV input, a fixed 3-byte coder, whose
6-byte bytestream is far below the int32 bound). -/
theorem C4_offsets_witness :
    ((extractOk (encode_function (fun _ _ => [1, 2, 3]) kvW witConfig8 1)).start_indices.length
      = 2 * kvW.length * 1) ∧
    (0 < 2 * kvW.length * 1 →
      (extractOk (encode_function (fun _ _ => [1, 2, 3]) kvW witConfig8 1)).start_indices.getD 0 0
        = 0) := by
  have hok : exceptIsOk (encode_function (fun _ _ => [1, 2, 3]) kvW witConfig8 1) = true := by
    rw [encode_function_ok_val (fun _ _ => [1, 2, 3]) kvW witConfig8 1 _ _
      kvW_key_cdf_ok kvW_value_cdf_ok]
    rfl
  have hloop : ∀ ci ei, coder_loop (fun _ _ => [1, 2, 3]) ci ei 2 1 =
      [[1, 2, 3], [1, 2, 3]] := fun ci ei => rfl
  have hbytes : (extractOk (encode_function (fun _ _ => [1, 2, 3]) kvW
      witConfig8 1)).bytestream.length < 2 ^ 31 := by
    rw [encode_function_ok_val (fun _ _ => [1, 2, 3]) kvW witConfig8 1 _ _
      kvW_key_cdf_ok kvW_value_cdf_ok]
    simp only [extractOk]
    rw [kvW_cdf_len, hloop]
    decide
  have h := C4_offsets (fun _ _ => [1, 2, 3]) kvW witConfig8 1 hok rfl hbytes
  exact ⟨h.1, h.2.2.2.1⟩


/-- C9: `encode_function` is a deterministic function of the KV tensor, the
configuration and the chunk size (for a fixed coder port and the fixed
rounding mode of the embedding): equal inputs give results equal in every
field. -/
theorem C9_determinism (coder : List (List ℤ) → List ℤ → List ℕ)
    (kv₁ kv₂ : Tensor5) (config₁ config₂ : CacheGenConfig) (cs₁ cs₂ : ℕ)
    (hkv : kv₁ = kv₂) (hcfg : config₁ = config₂) (hcs : cs₁ = cs₂) :
    encode_function coder kv₁ config₁ cs₁ = encode_function coder kv₂ config₂ cs₂ ∧
    (∀ o₁ o₂, encode_function coder kv₁ config₁ cs₁ = .ok o₁ →
      encode_function coder kv₂ config₂ cs₂ = .ok o₂ →
      o₁.bytestream = o₂.bytestream ∧ o₁.start_indices = o₂.start_indices ∧
      o₁.cdf = o₂.cdf ∧ o₁.max_tensors_key = o₂.max_tensors_key ∧
      o₁.max_tensors_value = o₂.max_tensors_value ∧
      o₁.num_heads = o₂.num_heads ∧ o₁.head_size = o₂.head_size) := by
  subst hkv
  subst hcfg
  subst hcs
  refine ⟨rfl, ?_⟩
  intro o₁ o₂ h₁ h₂
  rw [h₁] at h₂
  injection h₂ with h
  subst h
  exact ⟨rfl, rfl, rfl, rfl, rfl, rfl, rfl⟩

/-- Witness for C9 at concrete equal inputs. -/
theorem C9_determinism_witness :
    encode_function (fun _ _ => []) kvW witConfig8 1 =
      encode_function (fun _ _ => []) kvW witConfig8 1 ∧
    (∀ o₁ o₂, encode_function (fun _ _ => []) kvW witConfig8 1 = .ok o₁ →
      encode_function (fun _ _ => []) kvW witConfig8 1 = .ok o₂ →
      o₁.bytestream = o₂.bytestream ∧ o₁.start_indices = o₂.start_indices ∧
      o₁.cdf = o₂.cdf ∧ o₁.max_tensors_key = o₂.max_tensors_key ∧
      o₁.max_tensors_value = o₂.max_tensors_value ∧
      o₁.num_heads = o₂.num_heads ∧ o₁.head_size = o₂.head_size) :=
  C9_determinism (fun _ _ => []) kvW kvW witConfig8 witConfig8 1 1 rfl rfl rfl

/-- C10: `to_bytes` calls the encoder with the chunk-size argument taken
from the (possibly transposed) tensor's own token axis `shape[2]`; the
`chunk_size` stored in the serializer from the engine configuration has no
effect on the produced bytes — two serializer states differing only in
that field produce identical outputs. -/
theorem C10_chunk_size_unused (serialize : CacheGenEncoderOutput → List ℕ)
    (coder : List (List ℤ) → List ℤ → List ℕ)
    (s₁ s₂ : CacheGenSerializer) (tensor : Tensor5)
    (hcfg : s₁.cachegen_config = s₂.cachegen_config) (hfmt : s₁.fmt = s₂.fmt) :
    to_bytes serialize coder s₁ tensor = to_bytes serialize coder s₂ tensor ∧
    to_bytes serialize coder s₁ tensor = Except.map serialize
      (encode_function coder (adapt_layout s₁.fmt tensor) s₁.cachegen_config
        (ntokens_of (adapt_layout s₁.fmt tensor))) := by
  constructor
  · unfold to_bytes
    rw [hcfg, hfmt]
  · rfl

/-- Witness for C10: two serializer states differing only in the stored
`chunk_size` (5 vs 99) produce the same bytes on a concrete tensor. -/
theorem C10_chunk_size_unused_witness :
    to_bytes (fun _ => []) (fun _ _ => []) ⟨witConfig8, 5, "vllm"⟩ kvW =
      to_bytes (fun _ => []) (fun _ _ => []) ⟨witConfig8, 99, "vllm"⟩ kvW :=
  (C10_chunk_size_unused (fun _ => []) (fun _ _ => [])
    ⟨witConfig8, 5, "vllm"⟩ ⟨witConfig8, 99, "vllm"⟩ kvW rfl rfl).1
